import Mathlib

/-!
# salty-dog: rule selection, visiting and diff/mutate engine — verification

Shallow embedding of the core of the `salty-dog` repository:

* `src/rule/index.ts` — `resolveRules`, `visitRules`, `RuleSelector`, `RuleData`
* `src/rule/SchemaRule.ts` — the `SchemaRule` class (constructor, `pick`, `visit`)

External collaborators that the spec treats as opaque capabilities are modelled
from the spec where the claims depend on them:

* the `deep-diff` library (`diff`, `applyDiff`) — modelled from the spec's
  DeltaEngine contract (one operation per added/changed/removed key or array
  index, recursing into nested containers; deep-equal inputs yield an empty
  sequence; apply mutates the target so it becomes deep-equal to the source);
* `lodash` helpers (`cloneDeep`, `intersection`, `defaultTo`, `isNil`) — by
  their documented semantics (deep copy is the identity under value semantics);
* `VisitorContext` (`mergeResult`, `compile`, `pick`, `innerOptions`) and the
  `hasItems` utility, whose sources are not part of the embedded tree —
  modelled from the spec (`mergeResult` is an append-only merge of the
  accumulated `VisitorResult`; `pick` returns an ordered sequence of node
  references, modelled as paths into the document; `compile` produces a cached
  predicate, modelled transparently as the predicate itself; `hasItems` tests
  that a possibly-absent array is present and non-empty).

JSON/YAML documents are modelled by the inductive type `Value`.  JavaScript
objects cannot carry duplicate keys, so the well-formedness predicate `wf`
(recursively: every object has pairwise-distinct keys) characterises the trees
that actually arise at runtime; theorems about the delta engine assume it.
-/

namespace SaltyDog

/-- A parsed YAML/JSON tree value (the `any` document values of the source). -/
inductive Value where
  | null : Value
  | bool : Bool → Value
  | num : Int → Value
  | str : String → Value
  | arr : List Value → Value
  | obj : List (String × Value) → Value

/-- One step of a path into a `Value` tree: an object key or an array index. -/
inductive Step where
  | key : String → Step
  | idx : Nat → Step
deriving DecidableEq

/-- A path into a `Value` tree (deep-diff change records carry such paths). -/
abbrev Path := List Step

/-- The kind of a structural change record: an edited value, an added key or
index, or a deleted key or index (deep-diff kinds E, N, D). -/
inductive DKind where
  | edit : Value → Value → DKind
  | add : Value → DKind
  | del : Value → DKind

/-- A single structural change record: a path and what changed there. -/
structure DeltaOp where
  path : Path
  kind : DKind

/-- First value bound to key `k` in an object's field list (JS property read). -/
def lookupF : List (String × Value) → String → Option Value
  | [], _ => none
  | (c, v) :: rest, k => if c = k then some v else lookupF rest k

theorem sizeOf_lookupF {fs : List (String × Value)} {k : String} {v : Value}
    (h : lookupF fs k = some v) : sizeOf v < sizeOf fs := by
  induction fs with
  | nil => simp [lookupF] at h
  | cons p rest ih =>
    obtain ⟨c, w⟩ := p
    simp only [lookupF] at h
    split at h
    · cases h
      simp only [List.cons.sizeOf_spec, Prod.mk.sizeOf_spec]
      omega
    · have := ih h
      simp only [List.cons.sizeOf_spec, Prod.mk.sizeOf_spec]
      omega

/-- Prepend an object-key step to a change record's path (used when the diff of
a nested value is lifted to the enclosing object). -/
def prepKey (k : String) (op : DeltaOp) : DeltaOp :=
  { op with path := Step.key k :: op.path }

/-- Prepend array index `0` to a change record's path. -/
def prepIdx0 (op : DeltaOp) : DeltaOp :=
  { op with path := Step.idx 0 :: op.path }

/-- Shift the leading array index of a change record's path by one (used when
the diff of an array tail is lifted over the head element). -/
def shiftIdx (op : DeltaOp) : DeltaOp :=
  match op.path with
  | Step.idx i :: q => { op with path := Step.idx (i + 1) :: q }
  | _ => op

/-- Addition record for a right-only object key. -/
def mkAddOp (kv : String × Value) : DeltaOp :=
  ⟨[Step.key kv.1], DKind.add kv.2⟩

mutual

/-- Modelled from the spec: the `deep-diff` structural comparison (§4.5
DeltaEngine).  `diff` produces one change record per added, changed or removed
key or array index, recursing into nested containers; deep-equal inputs yield
an empty sequence.  Scalars of equal kind are compared directly; values of
different kinds produce a single root edit. -/
def diff (a b : Value) : List DeltaOp :=
  match a, b with
  | Value.obj fa, Value.obj fb =>
    objDiff fa fb ++
      (fb.filter (fun kv => (lookupF fa kv.1).isNone)).map mkAddOp
  | Value.arr xa, Value.arr xb => arrDiff xa xb
  | Value.null, Value.null => []
  | Value.bool x, Value.bool y =>
    if x = y then [] else [⟨[], DKind.edit (Value.bool x) (Value.bool y)⟩]
  | Value.num x, Value.num y =>
    if x = y then [] else [⟨[], DKind.edit (Value.num x) (Value.num y)⟩]
  | Value.str x, Value.str y =>
    if x = y then [] else [⟨[], DKind.edit (Value.str x) (Value.str y)⟩]
  | a, b => [⟨[], DKind.edit a b⟩]
termination_by sizeOf a + sizeOf b
decreasing_by
  all_goals simp_wf
  all_goals omega

/-- Modelled from the spec: object part of the deep-diff comparison.  Walks
the left object's fields, recursing where the key is shared and emitting a
deletion where it is not; additions for right-only keys are appended by
`diff`. -/
def objDiff (fa fb : List (String × Value)) : List DeltaOp :=
  match fa with
  | [] => []
  | (k, va) :: rest =>
    (match _hlk : lookupF fb k with
     | some vb => (diff va vb).map (prepKey k)
     | none => [⟨[Step.key k], DKind.del va⟩]) ++ objDiff rest fb
termination_by sizeOf fa + sizeOf fb
decreasing_by
  all_goals simp_wf
  all_goals try have hb := sizeOf_lookupF _hlk
  all_goals omega

/-- Modelled from the spec: array part of the deep-diff comparison.  Walks the
two arrays index-wise, emitting trailing deletions (outermost index first) or
trailing additions. -/
def arrDiff (xa xb : List Value) : List DeltaOp :=
  match xa, xb with
  | x :: xs, y :: ys => (diff x y).map prepIdx0 ++ (arrDiff xs ys).map shiftIdx
  | [], y :: ys => ⟨[Step.idx 0], DKind.add y⟩ :: (arrDiff [] ys).map shiftIdx
  | x :: xs, [] => (arrDiff xs []).map shiftIdx ++ [⟨[Step.idx 0], DKind.del x⟩]
  | [], [] => []
termination_by sizeOf xa + sizeOf xb
decreasing_by
  all_goals simp_wf
  all_goals omega

end

/-- Replace the value at key `c` (the terminal deep-diff E record on an object
field: JS property assignment). -/
def setF (fs : List (String × Value)) (c : String) (b : Value) :
    List (String × Value) :=
  fs.map (fun kv => if kv.1 = c then (kv.1, b) else kv)

/-- Delete key `c` (the terminal deep-diff D record on an object field). -/
def removeF (fs : List (String × Value)) (c : String) : List (String × Value) :=
  fs.filter (fun kv => kv.1 ≠ c)

/-- Add key `c` (the terminal deep-diff N record on an object field; `diff`
only emits additions for keys absent from the target). -/
def addF (fs : List (String × Value)) (c : String) (b : Value) :
    List (String × Value) :=
  fs ++ [(c, b)]

/-- Rewrite the value at key `c` with `f`. -/
def mapF (fs : List (String × Value)) (c : String) (f : Value → Value) :
    List (String × Value) :=
  fs.map (fun kv => if kv.1 = c then (kv.1, f kv.2) else kv)

/-- Insert a value at array index `i` (shifting later elements). -/
def insertAt : List Value → Nat → Value → List Value
  | xs, 0, b => b :: xs
  | [], _ + 1, b => [b]
  | x :: xs, n + 1, b => x :: insertAt xs n b

/-- Remove the element at array index `i`. -/
def removeAt : List Value → Nat → List Value
  | [], _ => []
  | _ :: xs, 0 => xs
  | x :: xs, n + 1 => x :: removeAt xs n

/-- Rewrite the element at array index `i` with `f`. -/
def mapAt : List Value → Nat → (Value → Value) → List Value
  | [], _, _ => []
  | x :: xs, 0, f => f x :: xs
  | x :: xs, n + 1, f => x :: mapAt xs n f

/-- Modelled from the spec: applying one deep-diff change record to a tree
(`applyChange`).  The path is navigated to the parent of the changed slot; the
terminal step selects the key or index that is edited, added or deleted. -/
def applyStep : Path → DKind → Value → Value
  | [], kd, t =>
    match kd with
    | DKind.edit _ b => b
    | DKind.add b => b
    | DKind.del _ => t
  | [Step.key c], kd, Value.obj fs =>
    match kd with
    | DKind.edit _ b => Value.obj (setF fs c b)
    | DKind.add b => Value.obj (addF fs c b)
    | DKind.del _ => Value.obj (removeF fs c)
  | Step.key c :: q, kd, Value.obj fs =>
    Value.obj (mapF fs c (fun v => applyStep q kd v))
  | [Step.idx i], kd, Value.arr xs =>
    match kd with
    | DKind.edit _ b => Value.arr (xs.set i b)
    | DKind.add b => Value.arr (insertAt xs i b)
    | DKind.del _ => Value.arr (removeAt xs i)
  | Step.idx i :: q, kd, Value.arr xs =>
    Value.arr (mapAt xs i (fun v => applyStep q kd v))
  | _, _, t => t
termination_by p _ _ => p.length
decreasing_by all_goals simp_wf

/-- Modelled from the spec: apply an ordered sequence of change records
(deep-diff `applyDiff` applies each change in order). -/
def applyOps (t : Value) (ops : List DeltaOp) : Value :=
  ops.foldl (fun acc op => applyStep op.path op.kind acc) t

/-! ### Canonical form and deep equality

JavaScript deep equality treats objects as unordered key/value maps.  `canon`
sorts every object's fields by key, recursively; two trees are deep-equal iff
their canonical forms coincide. -/

/-- Order on object fields by key (used to canonicalise field order). -/
def keyLE (p q : String × Value) : Prop := p.1 ≤ q.1

/-- Strict order on object fields by key. -/
def keyLT (p q : String × Value) : Prop := p.1 < q.1

instance : DecidableRel keyLE := fun p q => inferInstanceAs (Decidable (p.1 ≤ q.1))

instance : IsTotal (String × Value) keyLE := ⟨fun a b => le_total a.1 b.1⟩

instance : IsTrans (String × Value) keyLE := ⟨fun _ _ _ h1 h2 => le_trans h1 h2⟩

instance : IsAntisymm (String × Value) keyLT := ⟨fun _ _ h1 h2 => (lt_asymm h1 h2).elim⟩

/-- Sort an object's fields by key. -/
def sortK (fs : List (String × Value)) : List (String × Value) :=
  fs.insertionSort keyLE

theorem sortK_perm (fs : List (String × Value)) : List.Perm (sortK fs) fs :=
  List.perm_insertionSort keyLE fs

theorem sortK_sorted (fs : List (String × Value)) : (sortK fs).Sorted keyLE :=
  List.sorted_insertionSort keyLE fs

mutual

/-- Canonical form of a tree: every object's fields sorted by key. -/
def canon : Value → Value
  | Value.null => Value.null
  | Value.bool b => Value.bool b
  | Value.num n => Value.num n
  | Value.str s => Value.str s
  | Value.arr xs => Value.arr (canonList xs)
  | Value.obj fs => Value.obj (sortK (canonFields fs))
termination_by v => sizeOf v
decreasing_by all_goals simp_wf

/-- Canonical form of each element of an array. -/
def canonList : List Value → List Value
  | [] => []
  | x :: xs => canon x :: canonList xs
termination_by xs => sizeOf xs
decreasing_by
  all_goals simp_wf
  all_goals omega

/-- Canonical form of each value of an object's field list. -/
def canonFields : List (String × Value) → List (String × Value)
  | [] => []
  | (k, v) :: fs => (k, canon v) :: canonFields fs
termination_by fs => sizeOf fs
decreasing_by
  all_goals simp_wf
  all_goals omega

end

/-- JavaScript deep equality of trees: equal canonical forms (object key order
is irrelevant; array order and all leaf values matter). -/
def deepEqual (a b : Value) : Prop := canon a = canon b

/-- Keys of an object's field list. -/
def fieldKeys (fs : List (String × Value)) : List String :=
  fs.map Prod.fst

/-- No key occurs twice (executable form). -/
def keysNodupB : List String → Bool
  | [] => true
  | k :: ks => !ks.contains k && keysNodupB ks

mutual

/-- Well-formed tree: no object carries duplicate keys, recursively.  Every
tree produced by parsing JSON/YAML in the source program satisfies this,
because JavaScript objects cannot carry duplicate keys. -/
def wf : Value → Bool
  | Value.null => true
  | Value.bool _ => true
  | Value.num _ => true
  | Value.str _ => true
  | Value.arr xs => wfList xs
  | Value.obj fs => keysNodupB (fieldKeys fs) && wfFields fs
termination_by v => sizeOf v
decreasing_by all_goals simp_wf

/-- `wf` for each element of an array. -/
def wfList : List Value → Bool
  | [] => true
  | x :: xs => wf x && wfList xs
termination_by xs => sizeOf xs
decreasing_by
  all_goals simp_wf
  all_goals omega

/-- `wf` for each value of an object's field list. -/
def wfFields : List (String × Value) → Bool
  | [] => true
  | (_, v) :: fs => wf v && wfFields fs
termination_by fs => sizeOf fs
decreasing_by
  all_goals simp_wf
  all_goals omega

end

/-! ### Association-list helper lemmas -/

/-- Keys of an object are pairwise distinct (the Prop form of `wf`'s key
condition). -/
def NodupK (fs : List (String × Value)) : Prop := (fieldKeys fs).Nodup

theorem keysNodupB_iff (ks : List String) : keysNodupB ks = true ↔ ks.Nodup := by
  induction ks with
  | nil => simp [keysNodupB]
  | cons k rest ih =>
    simp [keysNodupB, ih, List.elem_iff]

theorem fieldKeys_nil : fieldKeys [] = [] := rfl

theorem fieldKeys_cons (k : String) (v : Value) (fs : List (String × Value)) :
    fieldKeys ((k, v) :: fs) = k :: fieldKeys fs := rfl

theorem lookupF_mem {fs : List (String × Value)} {k : String} {v : Value}
    (h : lookupF fs k = some v) : (k, v) ∈ fs := by
  induction fs with
  | nil => simp [lookupF] at h
  | cons p rest ih =>
    obtain ⟨c, w⟩ := p
    simp only [lookupF] at h
    split at h
    · rename_i hc
      cases h
      subst hc
      exact List.mem_cons_self _ _
    · exact List.mem_cons_of_mem _ (ih h)

theorem mem_lookupF {fs : List (String × Value)} {k : String} {v : Value}
    (hnd : NodupK fs) (h : (k, v) ∈ fs) : lookupF fs k = some v := by
  induction fs with
  | nil => simp at h
  | cons p rest ih =>
    obtain ⟨c, w⟩ := p
    rcases List.mem_cons.mp h with h1 | h1
    · cases h1
      simp [lookupF]
    · have hk : k ∈ fieldKeys rest := List.mem_map_of_mem Prod.fst h1
      have hcn : c ∉ fieldKeys rest := by
        have := hnd
        simp only [NodupK, fieldKeys_cons, List.nodup_cons] at this
        exact this.1
      have hck : c ≠ k := fun hck => hcn (hck ▸ hk)
      have hrest : NodupK rest := by
        have := hnd
        simp only [NodupK, fieldKeys_cons, List.nodup_cons] at this
        exact this.2
      simp [lookupF, hck, ih hrest h1]

theorem lookupF_none_iff (fs : List (String × Value)) (k : String) :
    lookupF fs k = none ↔ k ∉ fieldKeys fs := by
  induction fs with
  | nil => simp [lookupF, fieldKeys]
  | cons p rest ih =>
    obtain ⟨c, w⟩ := p
    by_cases hc : c = k
    · subst hc
      simp [lookupF, fieldKeys_cons]
    · simp [lookupF, hc, fieldKeys_cons, ih, Ne.symm hc]

theorem lookupF_isSome_of_mem {fs : List (String × Value)} {k : String}
    (h : k ∈ fieldKeys fs) : (lookupF fs k).isNone = false := by
  cases hl : lookupF fs k with
  | none => exact absurd ((lookupF_none_iff fs k).mp hl) (fun hn => hn h)
  | some v => rfl

theorem NodupK_cons {k : String} {v : Value} {fs : List (String × Value)}
    (h : NodupK ((k, v) :: fs)) : k ∉ fieldKeys fs ∧ NodupK fs := by
  simpa [NodupK, fieldKeys_cons, List.nodup_cons] using h

theorem mapF_of_not_mem {fs : List (String × Value)} {c : String}
    (h : c ∉ fieldKeys fs) (f : Value → Value) : mapF fs c f = fs := by
  induction fs with
  | nil => rfl
  | cons p rest ih =>
    obtain ⟨k, w⟩ := p
    simp only [fieldKeys_cons, List.mem_cons, not_or] at h
    simp [mapF, Ne.symm h.1] at ih ⊢
    exact ih h.2

theorem setF_of_not_mem {fs : List (String × Value)} {c : String}
    (h : c ∉ fieldKeys fs) (b : Value) : setF fs c b = fs := by
  induction fs with
  | nil => rfl
  | cons p rest ih =>
    obtain ⟨k, w⟩ := p
    simp only [fieldKeys_cons, List.mem_cons, not_or] at h
    simp [setF, Ne.symm h.1] at ih ⊢
    exact ih h.2

theorem removeF_of_not_mem {fs : List (String × Value)} {c : String}
    (h : c ∉ fieldKeys fs) : removeF fs c = fs := by
  induction fs with
  | nil => rfl
  | cons p rest ih =>
    obtain ⟨k, w⟩ := p
    simp only [fieldKeys_cons, List.mem_cons, not_or] at h
    simp [removeF, Ne.symm h.1] at ih ⊢
    exact ih h.2

/-! ### Field-level and index-level views of `applyStep` -/

/-- A change record addressing an object field (all records emitted for an
object comparison are of this shape). -/
def KeyHeaded (op : DeltaOp) : Prop := ∃ c q, op.path = Step.key c :: q

/-- A change record addressing an array index. -/
def IdxHeaded (op : DeltaOp) : Prop := ∃ i q, op.path = Step.idx i :: q

/-- Head key of a key-headed change record. -/
def headKey (op : DeltaOp) : Option String :=
  match op.path with
  | Step.key c :: _ => some c
  | _ => none

/-- The effect of one key-headed change record on an object's field list. -/
def fieldStep (fs : List (String × Value)) (op : DeltaOp) :
    List (String × Value) :=
  match op.path with
  | [Step.key c] =>
    match op.kind with
    | DKind.edit _ b => setF fs c b
    | DKind.add b => addF fs c b
    | DKind.del _ => removeF fs c
  | Step.key c :: q => mapF fs c (fun v => applyStep q op.kind v)
  | _ => fs

/-- The effect of one idx-headed change record on an array's elements. -/
def idxStep (xs : List Value) (op : DeltaOp) : List Value :=
  match op.path with
  | [Step.idx i] =>
    match op.kind with
    | DKind.edit _ b => xs.set i b
    | DKind.add b => insertAt xs i b
    | DKind.del _ => removeAt xs i
  | Step.idx i :: q => mapAt xs i (fun v => applyStep q op.kind v)
  | _ => xs

/-- Iterated `fieldStep`. -/
def applyFields (fs : List (String × Value)) (ops : List DeltaOp) :
    List (String × Value) :=
  ops.foldl fieldStep fs

/-- Iterated `idxStep`. -/
def applyIdxs (xs : List Value) (ops : List DeltaOp) : List Value :=
  ops.foldl idxStep xs

theorem applyStep_obj (c : String) (q : Path) (kd : DKind)
    (fs : List (String × Value)) :
    applyStep (Step.key c :: q) kd (Value.obj fs)
      = Value.obj (fieldStep fs ⟨Step.key c :: q, kd⟩) := by
  cases q with
  | nil => cases kd <;> simp [applyStep, fieldStep]
  | cons s q0 => simp [applyStep, fieldStep]

theorem applyStep_arr (i : Nat) (q : Path) (kd : DKind) (xs : List Value) :
    applyStep (Step.idx i :: q) kd (Value.arr xs)
      = Value.arr (idxStep xs ⟨Step.idx i :: q, kd⟩) := by
  cases q with
  | nil => cases kd <;> simp [applyStep, idxStep]
  | cons s q0 => simp [applyStep, idxStep]

theorem applyStep_nil_edit (x b t : Value) :
    applyStep [] (DKind.edit x b) t = b := by
  rw [applyStep]

theorem applyStep_nil_add (b t : Value) : applyStep [] (DKind.add b) t = b := by
  rw [applyStep]

theorem applyStep_nil_del (x t : Value) : applyStep [] (DKind.del x) t = t := by
  rw [applyStep]

theorem applyOps_nil (t : Value) : applyOps t [] = t := rfl

theorem applyOps_cons (t : Value) (op : DeltaOp) (ops : List DeltaOp) :
    applyOps t (op :: ops) = applyOps (applyStep op.path op.kind t) ops := rfl

theorem applyOps_append (t : Value) (ops1 ops2 : List DeltaOp) :
    applyOps t (ops1 ++ ops2) = applyOps (applyOps t ops1) ops2 :=
  List.foldl_append _ _ _ _

theorem applyFields_append (fs : List (String × Value)) (ops1 ops2 : List DeltaOp) :
    applyFields fs (ops1 ++ ops2) = applyFields (applyFields fs ops1) ops2 :=
  List.foldl_append _ _ _ _

theorem applyIdxs_append (xs : List Value) (ops1 ops2 : List DeltaOp) :
    applyIdxs xs (ops1 ++ ops2) = applyIdxs (applyIdxs xs ops1) ops2 :=
  List.foldl_append _ _ _ _

theorem applyOps_obj {ops : List DeltaOp} (hops : ∀ op ∈ ops, KeyHeaded op)
    (fs : List (String × Value)) :
    applyOps (Value.obj fs) ops = Value.obj (applyFields fs ops) := by
  induction ops generalizing fs with
  | nil => rfl
  | cons op rest ih =>
    obtain ⟨c, q, hp⟩ := hops op (List.mem_cons_self _ _)
    have h1 : applyStep op.path op.kind (Value.obj fs)
        = Value.obj (fieldStep fs op) := by
      rw [hp]
      have : op = ⟨Step.key c :: q, op.kind⟩ := by
        cases op; simp_all
      rw [this] at hp ⊢
      exact applyStep_obj c q op.kind fs
    rw [applyOps_cons, h1, applyFields]
    simpa [applyFields] using ih (fun o ho => hops o (List.mem_cons_of_mem _ ho)) (fieldStep fs op)

theorem diff_obj_obj (fa fb : List (String × Value)) :
    diff (Value.obj fa) (Value.obj fb)
      = objDiff fa fb ++
          (fb.filter (fun kv => (lookupF fa kv.1).isNone)).map mkAddOp := by
  rw [diff]

theorem diff_arr_arr (xa xb : List Value) :
    diff (Value.arr xa) (Value.arr xb) = arrDiff xa xb := by
  rw [diff]

theorem objDiff_nil (fb : List (String × Value)) : objDiff [] fb = [] := by
  rw [objDiff]

theorem objDiff_cons_some {fb : List (String × Value)} {k : String} {vb : Value}
    (h : lookupF fb k = some vb) (va : Value) (rest : List (String × Value)) :
    objDiff ((k, va) :: rest) fb
      = (diff va vb).map (prepKey k) ++ objDiff rest fb := by
  rw [objDiff]
  split <;> rename_i hlk <;> rw [h] at hlk
  · cases hlk
    rfl
  · cases hlk

theorem objDiff_cons_none {fb : List (String × Value)} {k : String}
    (h : lookupF fb k = none) (va : Value) (rest : List (String × Value)) :
    objDiff ((k, va) :: rest) fb
      = ⟨[Step.key k], DKind.del va⟩ :: objDiff rest fb := by
  rw [objDiff]
  split <;> rename_i hlk <;> rw [h] at hlk
  · cases hlk
  · rfl

theorem arrDiff_cons_cons (x y : Value) (xs ys : List Value) :
    arrDiff (x :: xs) (y :: ys)
      = (diff x y).map prepIdx0 ++ (arrDiff xs ys).map shiftIdx := by
  rw [arrDiff]

theorem arrDiff_nil_cons (y : Value) (ys : List Value) :
    arrDiff [] (y :: ys)
      = ⟨[Step.idx 0], DKind.add y⟩ :: (arrDiff [] ys).map shiftIdx := by
  rw [arrDiff]

theorem arrDiff_cons_nil (x : Value) (xs : List Value) :
    arrDiff (x :: xs) []
      = (arrDiff xs []).map shiftIdx ++ [⟨[Step.idx 0], DKind.del x⟩] := by
  rw [arrDiff]

theorem arrDiff_nil_nil : arrDiff [] [] = [] := by
  rw [arrDiff]

theorem objDiff_headed {fa fb : List (String × Value)} {op : DeltaOp}
    (h : op ∈ objDiff fa fb) :
    ∃ c q, op.path = Step.key c :: q ∧ c ∈ fieldKeys fa := by
  induction fa with
  | nil => rw [objDiff_nil] at h; simp at h
  | cons p rest ih =>
    obtain ⟨k, va⟩ := p
    cases hl : lookupF fb k with
    | some vb =>
      rw [objDiff_cons_some hl] at h
      rcases List.mem_append.mp h with h1 | h1
      · obtain ⟨op0, _, hop⟩ := List.mem_map.mp h1
        exact ⟨k, op0.path, by simp [← hop, prepKey, fieldKeys_cons]⟩
      · obtain ⟨c, q, hq, hc⟩ := ih h1
        exact ⟨c, q, hq, by simp [fieldKeys_cons, hc]⟩
    | none =>
      rw [objDiff_cons_none hl] at h
      rcases List.mem_cons.mp h with h1 | h1
      · exact ⟨k, [], by simp [h1, fieldKeys_cons]⟩
      · obtain ⟨c, q, hq, hc⟩ := ih h1
        exact ⟨c, q, hq, by simp [fieldKeys_cons, hc]⟩

theorem shiftIdx_mk {i : Nat} {q : Path} (kd : DKind) :
    shiftIdx ⟨Step.idx i :: q, kd⟩ = ⟨Step.idx (i + 1) :: q, kd⟩ := rfl

theorem shiftIdx_headed {op : DeltaOp} (h : IdxHeaded op) :
    ∃ i q, op.path = Step.idx i :: q
      ∧ (shiftIdx op).path = Step.idx (i + 1) :: q
      ∧ (shiftIdx op).kind = op.kind := by
  obtain ⟨i, q, hq⟩ := h
  obtain ⟨p, kd⟩ := op
  simp only at hq
  subst hq
  exact ⟨i, q, rfl, rfl, rfl⟩

theorem arrDiff_headed : ∀ (xa xb : List Value) (op : DeltaOp),
    op ∈ arrDiff xa xb → IdxHeaded op := by
  intro xa
  induction xa with
  | nil =>
    intro xb
    induction xb with
    | nil =>
      intro op h
      rw [arrDiff_nil_nil] at h
      simp at h
    | cons y ys ihy =>
      intro op h
      rw [arrDiff_nil_cons] at h
      rcases List.mem_cons.mp h with h1 | h1
      · exact ⟨0, [], by simp [h1]⟩
      · obtain ⟨op0, hm, hop⟩ := List.mem_map.mp h1
        obtain ⟨i, q, _, hs, _⟩ := shiftIdx_headed (ihy op0 hm)
        exact ⟨i + 1, q, by rw [← hop]; exact hs⟩
  | cons x xs ih =>
    intro xb op h
    cases xb with
    | nil =>
      rw [arrDiff_cons_nil] at h
      rcases List.mem_append.mp h with h1 | h1
      · obtain ⟨op0, hm, hop⟩ := List.mem_map.mp h1
        obtain ⟨i, q, _, hs, _⟩ := shiftIdx_headed (ih [] op0 hm)
        exact ⟨i + 1, q, by rw [← hop]; exact hs⟩
      · simp only [List.mem_singleton] at h1
        exact ⟨0, [], by simp [h1]⟩
    | cons y ys =>
      rw [arrDiff_cons_cons] at h
      rcases List.mem_append.mp h with h1 | h1
      · obtain ⟨op0, _, hop⟩ := List.mem_map.mp h1
        exact ⟨0, op0.path, by rw [← hop]; rfl⟩
      · obtain ⟨op0, hm, hop⟩ := List.mem_map.mp h1
        obtain ⟨i, q, _, hs, _⟩ := shiftIdx_headed (ih ys op0 hm)
        exact ⟨i + 1, q, by rw [← hop]; exact hs⟩

theorem diff_root_edit {a b : Value} {op : DeltaOp} (h : op ∈ diff a b)
    (hp : op.path = []) : ∃ x y, op.kind = DKind.edit x y := by
  cases a <;> cases b
  case obj.obj fa fb =>
    rw [diff_obj_obj] at h
    rcases List.mem_append.mp h with h1 | h1
    · obtain ⟨c, q, hq, _⟩ := objDiff_headed h1
      rw [hp] at hq
      cases hq
    · obtain ⟨kv, _, hop⟩ := List.mem_map.mp h1
      rw [← hop] at hp
      cases hp
  case arr.arr xa xb2 =>
    rw [diff_arr_arr] at h
    obtain ⟨i, q, hq⟩ := arrDiff_headed xa xb2 op h
    rw [hp] at hq
    cases hq
  all_goals simp only [diff] at h
  all_goals try split at h
  all_goals try simp only [List.not_mem_nil] at h
  all_goals simp only [List.mem_singleton] at h
  all_goals exact ⟨_, _, by rw [h]⟩

theorem applyOps_arr {ops : List DeltaOp} (hops : ∀ op ∈ ops, IdxHeaded op)
    (xs : List Value) :
    applyOps (Value.arr xs) ops = Value.arr (applyIdxs xs ops) := by
  induction ops generalizing xs with
  | nil => rfl
  | cons op rest ih =>
    obtain ⟨i, q, hp⟩ := hops op (List.mem_cons_self _ _)
    have h1 : applyStep op.path op.kind (Value.arr xs)
        = Value.arr (idxStep xs op) := by
      rw [hp]
      have : op = ⟨Step.idx i :: q, op.kind⟩ := by
        cases op; simp_all
      rw [this] at hp ⊢
      exact applyStep_arr i q op.kind xs
    rw [applyOps_cons, h1, applyIdxs]
    simpa [applyIdxs] using ih (fun o ho => hops o (List.mem_cons_of_mem _ ho)) (idxStep xs op)

/-! ### Frame and group lemmas: how grouped change records act on containers -/

theorem fieldStep_cons_ne {k c : String} {v : Value} {fs : List (String × Value)}
    {q : Path} {kd : DKind} (hne : c ≠ k) :
    fieldStep ((k, v) :: fs) ⟨Step.key c :: q, kd⟩
      = (k, v) :: fieldStep fs ⟨Step.key c :: q, kd⟩ := by
  cases q with
  | nil =>
    cases kd with
    | edit x b => simp [fieldStep, setF, Ne.symm hne]
    | add b => simp [fieldStep, addF]
    | del x => simp [fieldStep, removeF, Ne.symm hne]
  | cons s q0 => simp [fieldStep, mapF, Ne.symm hne]

theorem applyFields_cons_ne {k : String} {v : Value} {ops : List DeltaOp}
    (hops : ∀ op ∈ ops, ∃ c q, op.path = Step.key c :: q ∧ c ≠ k)
    (fs : List (String × Value)) :
    applyFields ((k, v) :: fs) ops = (k, v) :: applyFields fs ops := by
  induction ops generalizing fs with
  | nil => rfl
  | cons op rest ih =>
    obtain ⟨c, q, hp, hne⟩ := hops op (List.mem_cons_self _ _)
    have hstep : fieldStep ((k, v) :: fs) op = (k, v) :: fieldStep fs op := by
      obtain ⟨p, kd⟩ := op
      simp only at hp
      subst hp
      exact fieldStep_cons_ne hne
    show applyFields (fieldStep ((k, v) :: fs) op) rest = _
    rw [hstep]
    exact ih (fun o ho => hops o (List.mem_cons_of_mem _ ho)) (fieldStep fs op)

theorem applyFields_prepKey {k : String} {fs : List (String × Value)}
    (hk : k ∉ fieldKeys fs) {ops : List DeltaOp}
    (hroot : ∀ op ∈ ops, op.path = [] → ∃ x y, op.kind = DKind.edit x y)
    (va : Value) :
    applyFields ((k, va) :: fs) (ops.map (prepKey k))
      = (k, applyOps va ops) :: fs := by
  induction ops generalizing va with
  | nil => rfl
  | cons op rest ih =>
    obtain ⟨p, kd⟩ := op
    have hstep : fieldStep ((k, va) :: fs) (prepKey k ⟨p, kd⟩)
        = (k, applyStep p kd va) :: fs := by
      cases p with
      | nil =>
        obtain ⟨x, y, hkd⟩ := hroot ⟨[], kd⟩ (List.mem_cons_self _ _) rfl
        simp only at hkd
        subst hkd
        show fieldStep ((k, va) :: fs) ⟨[Step.key k], DKind.edit x y⟩ = _
        have h1 : fieldStep ((k, va) :: fs) ⟨[Step.key k], DKind.edit x y⟩
            = (k, y) :: setF fs k y := by
          simp [fieldStep, setF]
        rw [h1, setF_of_not_mem hk, applyStep_nil_edit]
      | cons s p0 =>
        show fieldStep ((k, va) :: fs) ⟨Step.key k :: s :: p0, kd⟩ = _
        have h1 : fieldStep ((k, va) :: fs) ⟨Step.key k :: s :: p0, kd⟩
            = (k, applyStep (s :: p0) kd va)
                :: mapF fs k (fun v => applyStep (s :: p0) kd v) := by
          simp [fieldStep, mapF]
        rw [h1, mapF_of_not_mem hk]
    show applyFields (fieldStep ((k, va) :: fs) (prepKey k ⟨p, kd⟩)) (rest.map (prepKey k)) = _
    rw [hstep]
    rw [ih (fun o ho hp => hroot o (List.mem_cons_of_mem _ ho) hp) (applyStep p kd va)]
    rfl

theorem applyFields_adds (adds : List (String × Value))
    (gs : List (String × Value)) :
    applyFields gs (adds.map mkAddOp) = gs ++ adds := by
  induction adds generalizing gs with
  | nil => simp [applyFields]
  | cons kv rest ih =>
    obtain ⟨c, b⟩ := kv
    show applyFields (fieldStep gs (mkAddOp (c, b))) (rest.map mkAddOp) = _
    have hstep : fieldStep gs (mkAddOp (c, b)) = gs ++ [(c, b)] := by
      simp [mkAddOp, fieldStep, addF]
    rw [hstep, ih]
    simp

theorem idxStep_shift {op : DeltaOp} (h : IdxHeaded op) (x : Value)
    (xs : List Value) :
    idxStep (x :: xs) (shiftIdx op) = x :: idxStep xs op := by
  obtain ⟨p, kd⟩ := op
  obtain ⟨i, q, hq⟩ := h
  simp only at hq
  subst hq
  rw [shiftIdx_mk]
  cases q with
  | nil =>
    cases kd with
    | edit a b => simp [idxStep]
    | add b => simp [idxStep, insertAt]
    | del a => simp [idxStep, removeAt]
  | cons s q0 => simp [idxStep, mapAt]

theorem applyIdxs_shift {ops : List DeltaOp} (hops : ∀ op ∈ ops, IdxHeaded op)
    (x : Value) (xs : List Value) :
    applyIdxs (x :: xs) (ops.map shiftIdx) = x :: applyIdxs xs ops := by
  induction ops generalizing xs with
  | nil => rfl
  | cons op rest ih =>
    show applyIdxs (idxStep (x :: xs) (shiftIdx op)) (rest.map shiftIdx) = _
    rw [idxStep_shift (hops op (List.mem_cons_self _ _))]
    exact ih (fun o ho => hops o (List.mem_cons_of_mem _ ho)) (idxStep xs op)

theorem applyIdxs_prepIdx0 {ops : List DeltaOp}
    (hroot : ∀ op ∈ ops, op.path = [] → ∃ x y, op.kind = DKind.edit x y)
    (x : Value) (xs : List Value) :
    applyIdxs (x :: xs) (ops.map prepIdx0) = applyOps x ops :: xs := by
  induction ops generalizing x with
  | nil => rfl
  | cons op rest ih =>
    obtain ⟨p, kd⟩ := op
    have hstep : idxStep (x :: xs) (prepIdx0 ⟨p, kd⟩)
        = applyStep p kd x :: xs := by
      cases p with
      | nil =>
        obtain ⟨a, b, hkd⟩ := hroot ⟨[], kd⟩ (List.mem_cons_self _ _) rfl
        simp only at hkd
        subst hkd
        simp [prepIdx0, idxStep, applyStep]
      | cons s p0 =>
        simp [prepIdx0, idxStep, mapAt, applyStep]
    show applyIdxs (idxStep (x :: xs) (prepIdx0 ⟨p, kd⟩)) (rest.map prepIdx0) = _
    rw [hstep]
    rw [ih (fun o ho hp => hroot o (List.mem_cons_of_mem _ ho) hp) (applyStep p kd x)]
    rfl

/-! ### Characterisation of `applyOps _ (diff _ _)` on containers -/

/-- Specification of what applying an object diff leaves behind: fields whose
key also occurs on the right are rewritten by the recursive apply-diff, fields
whose key does not occur on the right are dropped. -/
def procFields : List (String × Value) → List (String × Value) →
    List (String × Value)
  | [], _ => []
  | (k, va) :: rest, fb =>
    match lookupF fb k with
    | some vb => (k, applyOps va (diff va vb)) :: procFields rest fb
    | none => procFields rest fb

theorem applyFields_objDiff {fa fb : List (String × Value)} (hnd : NodupK fa) :
    applyFields fa (objDiff fa fb) = procFields fa fb := by
  induction fa with
  | nil => rw [objDiff_nil]; rfl
  | cons p rest ih =>
    obtain ⟨k, va⟩ := p
    obtain ⟨hk, hrest⟩ := NodupK_cons hnd
    cases hl : lookupF fb k with
    | some vb =>
      rw [objDiff_cons_some hl, applyFields_append]
      rw [applyFields_prepKey hk (fun op hm hp => diff_root_edit hm hp) va]
      rw [applyFields_cons_ne (fun op hm => ?_) rest, ih hrest]
      · simp [procFields, hl]
      · obtain ⟨c, q, hq, hc⟩ := objDiff_headed hm
        exact ⟨c, q, hq, fun hck => hk (hck ▸ hc)⟩
    | none =>
      rw [objDiff_cons_none hl]
      show applyFields (fieldStep ((k, va) :: rest) ⟨[Step.key k], DKind.del va⟩)
          (objDiff rest fb) = _
      have hstep : fieldStep ((k, va) :: rest) ⟨[Step.key k], DKind.del va⟩
          = removeF rest k := by
        simp [fieldStep, removeF]
      rw [hstep, removeF_of_not_mem hk, ih hrest]
      simp [procFields, hl]

theorem applyOps_diff_obj {fa fb : List (String × Value)} (hnd : NodupK fa) :
    applyOps (Value.obj fa) (diff (Value.obj fa) (Value.obj fb))
      = Value.obj (procFields fa fb
          ++ fb.filter (fun kv => (lookupF fa kv.1).isNone)) := by
  rw [diff_obj_obj]
  rw [applyOps_obj (fun op hm => ?_)]
  · rw [applyFields_append, applyFields_objDiff hnd,
      applyFields_adds]
  · rcases List.mem_append.mp hm with h1 | h1
    · obtain ⟨c, q, hq, _⟩ := objDiff_headed h1
      exact ⟨c, q, hq⟩
    · obtain ⟨kv, _, hop⟩ := List.mem_map.mp h1
      exact ⟨kv.1, [], by rw [← hop]; rfl⟩

theorem applyIdxs_arrDiff : ∀ (xa xb : List Value),
    applyIdxs xa (arrDiff xa xb)
      = List.zipWith (fun x y => applyOps x (diff x y)) xa xb
          ++ xb.drop xa.length := by
  intro xa
  induction xa with
  | nil =>
    intro xb
    induction xb with
    | nil => rw [arrDiff_nil_nil]; rfl
    | cons y ys ihy =>
      rw [arrDiff_nil_cons]
      show applyIdxs (idxStep [] ⟨[Step.idx 0], DKind.add y⟩)
          ((arrDiff [] ys).map shiftIdx) = _
      have hstep : idxStep [] ⟨[Step.idx 0], DKind.add y⟩ = [y] := by
        simp [idxStep, insertAt]
      rw [hstep, applyIdxs_shift (fun op hm => arrDiff_headed [] ys op hm)]
      rw [ihy]
      simp
  | cons x xs ih =>
    intro xb
    cases xb with
    | nil =>
      rw [arrDiff_cons_nil, applyIdxs_append]
      rw [applyIdxs_shift (fun op hm => arrDiff_headed xs [] op hm)]
      rw [ih []]
      simp [applyIdxs, idxStep, removeAt]
    | cons y ys =>
      rw [arrDiff_cons_cons, applyIdxs_append]
      rw [applyIdxs_prepIdx0 (fun op hm hp => diff_root_edit hm hp)]
      rw [applyIdxs_shift (fun op hm => arrDiff_headed xs ys op hm)]
      rw [ih ys]
      simp

theorem applyOps_diff_arr (xa xb : List Value) :
    applyOps (Value.arr xa) (diff (Value.arr xa) (Value.arr xb))
      = Value.arr (List.zipWith (fun x y => applyOps x (diff x y)) xa xb
          ++ xb.drop xa.length) := by
  rw [diff_arr_arr, applyOps_arr (fun op hm => arrDiff_headed xa xb op hm),
    applyIdxs_arrDiff]

/-! ### Lemmas about the canonical form -/

theorem canon_arr (xs : List Value) :
    canon (Value.arr xs) = Value.arr (canonList xs) := by
  rw [canon]

theorem canon_obj (fs : List (String × Value)) :
    canon (Value.obj fs) = Value.obj (sortK (canonFields fs)) := by
  rw [canon]

theorem canon_null : canon Value.null = Value.null := by rw [canon]

theorem canon_bool (b : Bool) : canon (Value.bool b) = Value.bool b := by
  rw [canon]

theorem canon_num (n : Int) : canon (Value.num n) = Value.num n := by
  rw [canon]

theorem canon_str (s : String) : canon (Value.str s) = Value.str s := by
  rw [canon]

theorem canonList_eq_map (xs : List Value) : canonList xs = xs.map canon := by
  induction xs with
  | nil => rw [canonList]; rfl
  | cons x rest ih => rw [canonList, ih]; rfl

theorem canonFields_eq_map (fs : List (String × Value)) :
    canonFields fs = fs.map (fun kv => (kv.1, canon kv.2)) := by
  induction fs with
  | nil => rw [canonFields]; rfl
  | cons kv rest ih =>
    obtain ⟨k, v⟩ := kv
    rw [canonFields, ih]
    rfl

theorem fieldKeys_canonFields (fs : List (String × Value)) :
    fieldKeys (canonFields fs) = fieldKeys fs := by
  rw [canonFields_eq_map]
  simp [fieldKeys, List.map_map]

theorem mem_canonFields {fs : List (String × Value)} {k : String} {w : Value} :
    (k, w) ∈ canonFields fs ↔ ∃ v, (k, v) ∈ fs ∧ w = canon v := by
  rw [canonFields_eq_map]
  constructor
  · intro h
    obtain ⟨kv, hm, he⟩ := List.mem_map.mp h
    obtain ⟨k0, v0⟩ := kv
    simp only [Prod.mk.injEq] at he
    exact ⟨v0, by rw [he.1] at hm; exact hm, he.2.symm⟩
  · intro ⟨v, hm, he⟩
    subst he
    exact List.mem_map.mpr ⟨(k, v), hm, rfl⟩

/-! ### Lemmas about `wf` -/

theorem wf_obj_iff (fs : List (String × Value)) :
    wf (Value.obj fs) = true ↔ NodupK fs ∧ wfFields fs = true := by
  rw [wf]
  rw [Bool.and_eq_true, keysNodupB_iff]
  exact Iff.rfl

theorem wf_arr_iff (xs : List Value) :
    wf (Value.arr xs) = true ↔ wfList xs = true := by
  rw [wf]

theorem wfFields_mem {fs : List (String × Value)} {k : String} {v : Value}
    (hwf : wfFields fs = true) (h : (k, v) ∈ fs) : wf v = true := by
  induction fs with
  | nil => simp at h
  | cons kv rest ih =>
    obtain ⟨k0, v0⟩ := kv
    rw [wfFields, Bool.and_eq_true] at hwf
    rcases List.mem_cons.mp h with h1 | h1
    · cases h1
      exact hwf.1
    · exact ih hwf.2 h1

theorem wfList_mem {xs : List Value} {x : Value} (hwf : wfList xs = true)
    (h : x ∈ xs) : wf x = true := by
  induction xs with
  | nil => simp at h
  | cons y rest ih =>
    rw [wfList, Bool.and_eq_true] at hwf
    rcases List.mem_cons.mp h with h1 | h1
    · cases h1
      exact hwf.1
    · exact ih hwf.2 h1

theorem wf_obj_mem {fs : List (String × Value)} {k : String} {v : Value}
    (hwf : wf (Value.obj fs) = true) (h : (k, v) ∈ fs) : wf v = true :=
  wfFields_mem ((wf_obj_iff fs).mp hwf).2 h

theorem wf_obj_nodup {fs : List (String × Value)}
    (hwf : wf (Value.obj fs) = true) : NodupK fs :=
  ((wf_obj_iff fs).mp hwf).1

theorem wf_arr_mem {xs : List Value} {x : Value}
    (hwf : wf (Value.arr xs) = true) (h : x ∈ xs) : wf x = true :=
  wfList_mem ((wf_arr_iff xs).mp hwf) h

theorem sizeOf_mem_fields {fs : List (String × Value)} {k : String} {v : Value}
    (h : (k, v) ∈ fs) : sizeOf v < sizeOf (Value.obj fs) := by
  have h1 := List.sizeOf_lt_of_mem h
  simp only [Prod.mk.sizeOf_spec, Value.obj.sizeOf_spec] at *
  omega

theorem sizeOf_mem_list {xs : List Value} {x : Value} (h : x ∈ xs) :
    sizeOf x < sizeOf (Value.arr xs) := by
  have h1 := List.sizeOf_lt_of_mem h
  simp only [Value.arr.sizeOf_spec] at *
  omega

/-! ### Sorted-permutation argument for object field lists -/

theorem sortK_eq_of_perm {l1 l2 : List (String × Value)}
    (hnd : (l1.map Prod.fst).Nodup) (hp : List.Perm l1 l2) :
    sortK l1 = sortK l2 := by
  have hperm : List.Perm (sortK l1) (sortK l2) :=
    ((sortK_perm l1).trans hp).trans (sortK_perm l2).symm
  have hnd1 : ((sortK l1).map Prod.fst).Nodup :=
    (List.Perm.map Prod.fst (sortK_perm l1)).nodup_iff.mpr hnd
  have hnd2 : ((sortK l2).map Prod.fst).Nodup :=
    (List.Perm.map Prod.fst hperm).nodup_iff.mp hnd1
  have hlt1 : (sortK l1).Sorted keyLT := by
    have hpw := (sortK_sorted l1).and ((List.pairwise_map).mp hnd1)
    exact hpw.imp (fun h => lt_of_le_of_ne h.1 h.2)
  have hlt2 : (sortK l2).Sorted keyLT := by
    have hpw := (sortK_sorted l2).and ((List.pairwise_map).mp hnd2)
    exact hpw.imp (fun h => lt_of_le_of_ne h.1 h.2)
  exact List.eq_of_perm_of_sorted hperm hlt1 hlt2

theorem procFields_nil (fb : List (String × Value)) : procFields [] fb = [] :=
  rfl

theorem procFields_cons_some {fb : List (String × Value)} {k : String}
    {vb : Value} (hl : lookupF fb k = some vb) (va : Value)
    (rest : List (String × Value)) :
    procFields ((k, va) :: rest) fb
      = (k, applyOps va (diff va vb)) :: procFields rest fb := by
  simp [procFields, hl]

theorem procFields_cons_none {fb : List (String × Value)} {k : String}
    (hl : lookupF fb k = none) (va : Value) (rest : List (String × Value)) :
    procFields ((k, va) :: rest) fb = procFields rest fb := by
  simp [procFields, hl]

theorem procFields_mem {fa fb : List (String × Value)} {k : String} {u : Value} :
    (k, u) ∈ procFields fa fb
      ↔ ∃ va vb, (k, va) ∈ fa ∧ lookupF fb k = some vb
          ∧ u = applyOps va (diff va vb) := by
  induction fa with
  | nil => simp [procFields_nil]
  | cons p rest ih =>
    obtain ⟨k0, va0⟩ := p
    cases hl : lookupF fb k0 with
    | some vb0 =>
      rw [procFields_cons_some hl]
      constructor
      · intro h
        rcases List.mem_cons.mp h with h1 | h1
        · rw [Prod.mk.injEq] at h1
          obtain ⟨he1, he2⟩ := h1
          subst he1
          exact ⟨va0, vb0, List.mem_cons_self _ _, hl, he2⟩
        · obtain ⟨va, vb, hm, hlk, hu⟩ := ih.mp h1
          exact ⟨va, vb, List.mem_cons_of_mem _ hm, hlk, hu⟩
      · rintro ⟨va, vb, hm, hlk, hu⟩
        rcases List.mem_cons.mp hm with h1 | h1
        · rw [Prod.mk.injEq] at h1
          obtain ⟨he1, he2⟩ := h1
          subst he1
          subst he2
          rw [hl] at hlk
          injection hlk with hvb
          subst hvb
          exact List.mem_cons.mpr (Or.inl (by rw [hu]))
        · exact List.mem_cons_of_mem _ (ih.mpr ⟨va, vb, h1, hlk, hu⟩)
    | none =>
      rw [procFields_cons_none hl]
      constructor
      · intro h
        obtain ⟨va, vb, hm, hlk, hu⟩ := ih.mp h
        exact ⟨va, vb, List.mem_cons_of_mem _ hm, hlk, hu⟩
      · rintro ⟨va, vb, hm, hlk, hu⟩
        rcases List.mem_cons.mp hm with h1 | h1
        · rw [Prod.mk.injEq] at h1
          obtain ⟨he1, _⟩ := h1
          subst he1
          rw [hl] at hlk
          cases hlk
        · exact ih.mpr ⟨va, vb, h1, hlk, hu⟩

theorem procFields_keys_sub {fa fb : List (String × Value)} {c : String}
    (h : c ∈ fieldKeys (procFields fa fb)) : c ∈ fieldKeys fa := by
  obtain ⟨kv, hm, he⟩ := List.mem_map.mp h
  obtain ⟨k, u⟩ := kv
  obtain ⟨va, vb, hva, _, _⟩ := procFields_mem.mp hm
  subst he
  exact List.mem_map.mpr ⟨(k, va), hva, rfl⟩

theorem procFields_nodup {fa fb : List (String × Value)} (hnd : NodupK fa) :
    NodupK (procFields fa fb) := by
  induction fa with
  | nil => simp [procFields_nil, NodupK, fieldKeys]
  | cons p rest ih =>
    obtain ⟨k, va⟩ := p
    obtain ⟨hk, hrest⟩ := NodupK_cons hnd
    cases hl : lookupF fb k with
    | some vb =>
      rw [procFields_cons_some hl]
      rw [NodupK, fieldKeys_cons, List.nodup_cons]
      exact ⟨fun hmem => hk (procFields_keys_sub hmem), ih hrest⟩
    | none =>
      rw [procFields_cons_none hl]
      exact ih hrest

theorem fieldKeys_append (l1 l2 : List (String × Value)) :
    fieldKeys (l1 ++ l2) = fieldKeys l1 ++ fieldKeys l2 := by
  simp [fieldKeys]

/-- Auxiliary for the array case: element-wise apply-diff canonicalises to the
right-hand array. -/
theorem map_canon_zip : ∀ (xa xb : List Value),
    (∀ x y, x ∈ xa → y ∈ xb → canon (applyOps x (diff x y)) = canon y) →
    (List.zipWith (fun x y => applyOps x (diff x y)) xa xb
        ++ xb.drop xa.length).map canon = xb.map canon := by
  intro xa
  induction xa with
  | nil => intro xb H; simp
  | cons x xs ih =>
    intro xb H
    cases xb with
    | nil => simp
    | cons y ys =>
      have hhead := H x y (List.mem_cons_self _ _) (List.mem_cons_self _ _)
      have htail := ih ys (fun x0 y0 hx0 hy0 =>
        H x0 y0 (List.mem_cons_of_mem _ hx0) (List.mem_cons_of_mem _ hy0))
      simp only [List.zipWith_cons_cons, List.length_cons, List.drop_succ_cons,
        List.cons_append, List.map_cons]
      rw [hhead, htail]

/-- Modelled from the spec (§4.5, first half of the DeltaEngine contract):
applying `diff a b` to `a` produces a tree deep-equal to `b`, for all
well-formed trees. -/
theorem canon_apply_diff (a b : Value) (ha : wf a = true) (hb : wf b = true) :
    canon (applyOps a (diff a b)) = canon b := by
  cases a with
  | obj fa =>
    cases b with
    | obj fb =>
      have hndfa : NodupK fa := wf_obj_nodup ha
      have hndfb : NodupK fb := wf_obj_nodup hb
      rw [applyOps_diff_obj hndfa, canon_obj, canon_obj]
      refine congrArg Value.obj ?_
      have hnodup : NodupK (canonFields (procFields fa fb
          ++ fb.filter (fun kv => (lookupF fa kv.1).isNone))) := by
        rw [NodupK, fieldKeys_canonFields, fieldKeys_append]
        apply List.Nodup.append
        · exact procFields_nodup hndfa
        · exact List.Nodup.sublist
            (List.Sublist.map Prod.fst (List.filter_sublist fb)) hndfb
        · rw [List.disjoint_left]
          intro c hc1 hc2
          have hcfa := procFields_keys_sub hc1
          obtain ⟨kv, hm, he⟩ := List.mem_map.mp hc2
          have hmf := List.mem_filter.mp hm
          have hnone : lookupF fa kv.1 = none :=
            Option.isNone_iff_eq_none.mp hmf.2
          subst he
          exact (lookupF_none_iff fa kv.1).mp hnone hcfa
      apply sortK_eq_of_perm hnodup
      apply List.Subperm.antisymm
      · apply List.subperm_of_subset (List.Nodup.of_map Prod.fst hnodup)
        intro x hx
        obtain ⟨k, w⟩ := x
        obtain ⟨v, hv, hw⟩ := mem_canonFields.mp hx
        rcases List.mem_append.mp hv with h1 | h1
        · obtain ⟨va, vb, hva, hlk, hu⟩ := procFields_mem.mp h1
          have hvb : (k, vb) ∈ fb := lookupF_mem hlk
          have hcanon : canon v = canon vb := by
            rw [hu]
            exact canon_apply_diff va vb (wf_obj_mem ha hva) (wf_obj_mem hb hvb)
          exact mem_canonFields.mpr ⟨vb, hvb, by rw [hw, hcanon]⟩
        · exact mem_canonFields.mpr ⟨v, (List.mem_filter.mp h1).1, hw⟩
      · have hndL2 : NodupK (canonFields fb) := by
          rw [NodupK, fieldKeys_canonFields]
          exact hndfb
        apply List.subperm_of_subset (List.Nodup.of_map Prod.fst hndL2)
        intro x hx
        obtain ⟨k, w⟩ := x
        obtain ⟨vb, hvb, hw⟩ := mem_canonFields.mp hx
        cases hla : lookupF fa k with
        | some va =>
          have hva : (k, va) ∈ fa := lookupF_mem hla
          have hlk : lookupF fb k = some vb := mem_lookupF hndfb hvb
          have hmem : (k, applyOps va (diff va vb)) ∈ procFields fa fb :=
            procFields_mem.mpr ⟨va, vb, hva, hlk, rfl⟩
          refine mem_canonFields.mpr
            ⟨applyOps va (diff va vb), List.mem_append_left _ hmem, ?_⟩
          rw [hw,
            canon_apply_diff va vb (wf_obj_mem ha hva) (wf_obj_mem hb hvb)]
        | none =>
          have hmem : (k, vb) ∈ fb.filter
              (fun kv => (lookupF fa kv.1).isNone) :=
            List.mem_filter.mpr ⟨hvb, by simp [hla]⟩
          exact mem_canonFields.mpr ⟨vb, List.mem_append_right _ hmem, hw⟩
    | null => simp [diff, applyOps_cons, applyOps_nil, applyStep_nil_edit]
    | bool y => simp [diff, applyOps_cons, applyOps_nil, applyStep_nil_edit]
    | num y => simp [diff, applyOps_cons, applyOps_nil, applyStep_nil_edit]
    | str y => simp [diff, applyOps_cons, applyOps_nil, applyStep_nil_edit]
    | arr ys => simp [diff, applyOps_cons, applyOps_nil, applyStep_nil_edit]
  | arr xa =>
    cases b with
    | arr xb =>
      rw [applyOps_diff_arr, canon_arr, canon_arr]
      refine congrArg Value.arr ?_
      rw [canonList_eq_map, canonList_eq_map]
      exact map_canon_zip xa xb (fun x y hx hy =>
        canon_apply_diff x y (wf_arr_mem ha hx) (wf_arr_mem hb hy))
    | null => simp [diff, applyOps_cons, applyOps_nil, applyStep_nil_edit]
    | bool y => simp [diff, applyOps_cons, applyOps_nil, applyStep_nil_edit]
    | num y => simp [diff, applyOps_cons, applyOps_nil, applyStep_nil_edit]
    | str y => simp [diff, applyOps_cons, applyOps_nil, applyStep_nil_edit]
    | obj fb => simp [diff, applyOps_cons, applyOps_nil, applyStep_nil_edit]
  | null =>
    cases b <;> simp [diff, applyOps_cons, applyOps_nil, applyStep_nil_edit]
  | bool x =>
    cases b with
    | bool y =>
      simp only [diff]
      split
      · rename_i h
        subst h
        rw [applyOps_nil]
      · simp [applyOps_cons, applyOps_nil, applyStep_nil_edit]
    | null => simp [diff, applyOps_cons, applyOps_nil, applyStep_nil_edit]
    | num y => simp [diff, applyOps_cons, applyOps_nil, applyStep_nil_edit]
    | str y => simp [diff, applyOps_cons, applyOps_nil, applyStep_nil_edit]
    | arr ys => simp [diff, applyOps_cons, applyOps_nil, applyStep_nil_edit]
    | obj fb => simp [diff, applyOps_cons, applyOps_nil, applyStep_nil_edit]
  | num x =>
    cases b with
    | num y =>
      simp only [diff]
      split
      · rename_i h
        subst h
        rw [applyOps_nil]
      · simp [applyOps_cons, applyOps_nil, applyStep_nil_edit]
    | null => simp [diff, applyOps_cons, applyOps_nil, applyStep_nil_edit]
    | bool y => simp [diff, applyOps_cons, applyOps_nil, applyStep_nil_edit]
    | str y => simp [diff, applyOps_cons, applyOps_nil, applyStep_nil_edit]
    | arr ys => simp [diff, applyOps_cons, applyOps_nil, applyStep_nil_edit]
    | obj fb => simp [diff, applyOps_cons, applyOps_nil, applyStep_nil_edit]
  | str x =>
    cases b with
    | str y =>
      simp only [diff]
      split
      · rename_i h
        subst h
        rw [applyOps_nil]
      · simp [applyOps_cons, applyOps_nil, applyStep_nil_edit]
    | null => simp [diff, applyOps_cons, applyOps_nil, applyStep_nil_edit]
    | bool y => simp [diff, applyOps_cons, applyOps_nil, applyStep_nil_edit]
    | num y => simp [diff, applyOps_cons, applyOps_nil, applyStep_nil_edit]
    | arr ys => simp [diff, applyOps_cons, applyOps_nil, applyStep_nil_edit]
    | obj fb => simp [diff, applyOps_cons, applyOps_nil, applyStep_nil_edit]
termination_by sizeOf a
decreasing_by
  all_goals simp_wf
  all_goals try subst_vars
  all_goals first
  | exact sizeOf_mem_fields hva
  | exact sizeOf_mem_list hx

theorem canonFields_mono {fa : List (String × Value)} {p : String × Value}
    {x : String × Value} (h : x ∈ canonFields fa) :
    x ∈ canonFields (p :: fa) := by
  obtain ⟨k, w⟩ := x
  obtain ⟨v, hv, hw⟩ := mem_canonFields.mp h
  exact mem_canonFields.mpr ⟨v, List.mem_cons_of_mem _ hv, hw⟩

theorem objDiff_eq_nil_aux :
    ∀ (fa fb : List (String × Value)), NodupK fb →
      (∀ x, x ∈ canonFields fa → x ∈ canonFields fb) →
      (∀ (k : String) (va vb : Value), (k, va) ∈ fa → (k, vb) ∈ fb →
        canon va = canon vb → diff va vb = []) →
      objDiff fa fb = [] := by
  intro fa
  induction fa with
  | nil => intro fb _ _ _; exact objDiff_nil fb
  | cons p rest ih =>
    intro fb hndfb hmem hdiff
    obtain ⟨k, va⟩ := p
    have h1 : (k, canon va) ∈ canonFields ((k, va) :: rest) :=
      mem_canonFields.mpr ⟨va, List.mem_cons_self _ _, rfl⟩
    obtain ⟨vb, hvb, hcv⟩ := mem_canonFields.mp (hmem _ h1)
    have hlk : lookupF fb k = some vb := mem_lookupF hndfb hvb
    rw [objDiff_cons_some hlk]
    rw [hdiff k va vb (List.mem_cons_self _ _) hvb hcv]
    rw [ih fb hndfb (fun x hx => hmem x (canonFields_mono hx))
      (fun k0 va0 vb0 hva0 hvb0 hc0 =>
        hdiff k0 va0 vb0 (List.mem_cons_of_mem _ hva0) hvb0 hc0)]
    rfl

theorem arrDiff_eq_nil_aux :
    ∀ (xa xb : List Value), canonList xa = canonList xb →
      (∀ x y, x ∈ xa → y ∈ xb → canon x = canon y → diff x y = []) →
      arrDiff xa xb = [] := by
  intro xa
  induction xa with
  | nil =>
    intro xb hc _
    rw [canonList_eq_map, canonList_eq_map] at hc
    have : xb = [] := by
      cases xb with
      | nil => rfl
      | cons y ys => simp at hc
    subst this
    exact arrDiff_nil_nil
  | cons x xs ih =>
    intro xb hc hdiff
    cases xb with
    | nil =>
      rw [canonList_eq_map, canonList_eq_map] at hc
      simp at hc
    | cons y ys =>
      rw [canonList, canonList] at hc
      injection hc with hc1 hc2
      rw [arrDiff_cons_cons]
      rw [hdiff x y (List.mem_cons_self _ _) (List.mem_cons_self _ _) hc1]
      rw [ih ys hc2 (fun x0 y0 hx0 hy0 hc0 =>
        hdiff x0 y0 (List.mem_cons_of_mem _ hx0) (List.mem_cons_of_mem _ hy0) hc0)]
      rfl

/-- Modelled from the spec (§4.5, second half of the DeltaEngine contract):
deep-equal (well-formed) inputs yield an empty change sequence. -/
theorem diff_eq_nil (a b : Value) (ha : wf a = true) (hb : wf b = true)
    (hc : canon a = canon b) : diff a b = [] := by
  cases a with
  | obj fa =>
    cases b with
    | obj fb =>
      have hndfa : NodupK fa := wf_obj_nodup ha
      have hndfb : NodupK fb := wf_obj_nodup hb
      rw [canon_obj, canon_obj] at hc
      injection hc with hS
      have hmf : ∀ x, x ∈ canonFields fa ↔ x ∈ canonFields fb := by
        intro x
        rw [← (sortK_perm (canonFields fa)).mem_iff,
          ← (sortK_perm (canonFields fb)).mem_iff, hS]
      rw [diff_obj_obj]
      rw [List.append_eq_nil]
      constructor
      · exact objDiff_eq_nil_aux fa fb hndfb (fun x hx => (hmf x).mp hx)
          (fun k va vb hva hvb hcv =>
            diff_eq_nil va vb (wf_obj_mem ha hva) (wf_obj_mem hb hvb) hcv)
      · rw [List.map_eq_nil_iff, List.filter_eq_nil_iff]
        intro kv hkv
        obtain ⟨k, vb⟩ := kv
        have h1 : (k, canon vb) ∈ canonFields fb :=
          mem_canonFields.mpr ⟨vb, hkv, rfl⟩
        obtain ⟨va, hva, _⟩ := mem_canonFields.mp ((hmf _).mpr h1)
        have : k ∈ fieldKeys fa := List.mem_map.mpr ⟨(k, va), hva, rfl⟩
        simp [lookupF_isSome_of_mem this]
    | null => rw [canon_obj, canon_null] at hc; cases hc
    | bool y => rw [canon_obj, canon_bool] at hc; cases hc
    | num y => rw [canon_obj, canon_num] at hc; cases hc
    | str y => rw [canon_obj, canon_str] at hc; cases hc
    | arr ys => rw [canon_obj, canon_arr] at hc; cases hc
  | arr xa =>
    cases b with
    | arr xb =>
      rw [canon_arr, canon_arr] at hc
      injection hc with hL
      rw [diff_arr_arr]
      exact arrDiff_eq_nil_aux xa xb hL (fun x y hx hy hcv =>
        diff_eq_nil x y (wf_arr_mem ha hx) (wf_arr_mem hb hy) hcv)
    | null => rw [canon_arr, canon_null] at hc; cases hc
    | bool y => rw [canon_arr, canon_bool] at hc; cases hc
    | num y => rw [canon_arr, canon_num] at hc; cases hc
    | str y => rw [canon_arr, canon_str] at hc; cases hc
    | obj fb => rw [canon_arr, canon_obj] at hc; cases hc
  | null =>
    cases b with
    | null => rw [diff]
    | bool y => rw [canon_null, canon_bool] at hc; cases hc
    | num y => rw [canon_null, canon_num] at hc; cases hc
    | str y => rw [canon_null, canon_str] at hc; cases hc
    | arr ys => rw [canon_null, canon_arr] at hc; cases hc
    | obj fb => rw [canon_null, canon_obj] at hc; cases hc
  | bool x =>
    cases b with
    | bool y =>
      rw [canon_bool, canon_bool] at hc
      injection hc with hxy
      simp [diff, hxy]
    | null => rw [canon_bool, canon_null] at hc; cases hc
    | num y => rw [canon_bool, canon_num] at hc; cases hc
    | str y => rw [canon_bool, canon_str] at hc; cases hc
    | arr ys => rw [canon_bool, canon_arr] at hc; cases hc
    | obj fb => rw [canon_bool, canon_obj] at hc; cases hc
  | num x =>
    cases b with
    | num y =>
      rw [canon_num, canon_num] at hc
      injection hc with hxy
      simp [diff, hxy]
    | null => rw [canon_num, canon_null] at hc; cases hc
    | bool y => rw [canon_num, canon_bool] at hc; cases hc
    | str y => rw [canon_num, canon_str] at hc; cases hc
    | arr ys => rw [canon_num, canon_arr] at hc; cases hc
    | obj fb => rw [canon_num, canon_obj] at hc; cases hc
  | str x =>
    cases b with
    | str y =>
      rw [canon_str, canon_str] at hc
      injection hc with hxy
      simp [diff, hxy]
    | null => rw [canon_str, canon_null] at hc; cases hc
    | bool y => rw [canon_str, canon_bool] at hc; cases hc
    | num y => rw [canon_str, canon_num] at hc; cases hc
    | arr ys => rw [canon_str, canon_arr] at hc; cases hc
    | obj fb => rw [canon_str, canon_obj] at hc; cases hc
termination_by sizeOf a
decreasing_by
  all_goals simp_wf
  all_goals try subst_vars
  all_goals first
  | exact sizeOf_mem_fields hva
  | exact sizeOf_mem_list hx

/-- Modelled from the spec: `diff` of a tree with itself is empty. -/
theorem diff_self (a : Value) (ha : wf a = true) : diff a a = [] :=
  diff_eq_nil a a ha ha rfl

/-! ## The program: rules, selector and visiting engine

Embedded from `src/rule/index.ts` and the `SchemaRule` class; external
collaborators (`VisitorContext`, jsonpath `pick`, ajv validators, lodash) are
modelled as stated on each definition. -/

/-- From src: the logging levels of the noicejs logger (spec §6). -/
inductive LogLevel where
  | debug
  | info
  | warn
  | error
  | fatal
deriving DecidableEq

/-- Result of invoking a compiled ajv validator on a node: the boolean
verdict, the validator's `errors` property (null, or an array of
validation-failure descriptors), and the node value after the call (ajv
validators may mutate the node they check, e.g. to insert defaults). -/
structure CheckResult where
  ok : Bool
  errors : Option (List String)
  output : Value

/-- Modelled from the spec: a compiled schema predicate (the spec's
CompiledPredicate).  `ctx.compile` and its cache (src/visitor, not in the
embedded tree) are modelled transparently: schema data is represented by the
predicate it compiles to, and repeated compilation returns the same
predicate. -/
def CheckFn := Value → CheckResult

/-- From src: the `RuleData` interface (`src/rule/index.ts`).  `select` is
optional in the runtime data (rule documents may omit it), although the
TypeScript annotation says `string`. -/
structure RuleData where
  desc : String
  level : LogLevel
  name : String
  tags : List String
  check : CheckFn
  filter : Option CheckFn
  select : Option String

/-- From src: the fields of the `SchemaRule` class. -/
structure SchemaRule where
  desc : String
  level : LogLevel
  name : String
  select : String
  tags : List String
  check : CheckFn
  filter : Option CheckFn

/-- From src: the `SchemaRule` constructor.  `defaultTo(data.select, '$')`
returns `'$'` exactly when `data.select` is nil; `Array.from(data.tags)`
copies the tag array element-wise; `cloneDeep` of the `check`/`filter`
schemas is the identity under value semantics. -/
def SchemaRule.ofData (data : RuleData) : SchemaRule :=
  { desc := data.desc
    level := data.level
    name := data.name
    select := data.select.getD "$"
    tags := data.tags
    check := data.check
    filter := data.filter }

/-- From src: the `RuleSelector` interface — six criteria lists. -/
structure RuleSelector where
  excludeLevel : List LogLevel
  excludeName : List String
  excludeTag : List String
  includeLevel : List LogLevel
  includeName : List String
  includeTag : List String

/-- From src (utils): `ensureArray` — a missing array becomes the empty
array, a present one is copied. -/
def ensureArray {α : Type} (xs : Option (List α)) : List α := xs.getD []

/-- From src: the argument of `createRuleSelector` — all six criteria
optional. -/
structure PartialRuleSelector where
  excludeLevel : Option (List LogLevel)
  excludeName : Option (List String)
  excludeTag : Option (List String)
  includeLevel : Option (List LogLevel)
  includeName : Option (List String)
  includeTag : Option (List String)

/-- From src: `createRuleSelector` — fill each missing criteria list with the
empty list. -/
def createRuleSelector (options : PartialRuleSelector) : RuleSelector :=
  { excludeLevel := ensureArray options.excludeLevel
    excludeName := ensureArray options.excludeName
    excludeTag := ensureArray options.excludeTag
    includeLevel := ensureArray options.includeLevel
    includeName := ensureArray options.includeName
    includeTag := ensureArray options.includeTag }

/-- From src (lodash): `intersection(a, b)` — the distinct elements of `a`
that also occur in `b`. -/
def intersection {α : Type} [DecidableEq α] (xs ys : List α) : List α :=
  (xs.filter (fun x => ys.contains x)).dedup

/-- From src: the loop of `resolveRules`.  The source accumulates matching
rules in a JavaScript `Set` keyed by object identity and finally returns
`Array.from` of it; the rules handed in are distinct objects (each created by
`new SchemaRule`), so the set in insertion order is: append the current rule
when it survives the three exclusion checks (each `continue`s) and at least
one of the three inclusion checks `add`s it. -/
def resolveRulesGo : List SchemaRule → RuleSelector → List SchemaRule →
    List SchemaRule
  | [], _, acc => acc
  | r :: rest, sel, acc =>
    if sel.excludeLevel.contains r.level then
      resolveRulesGo rest sel acc
    else if sel.excludeName.contains r.name then
      resolveRulesGo rest sel acc
    else if !(intersection sel.excludeTag r.tags).isEmpty then
      resolveRulesGo rest sel acc
    else
      let added :=
        sel.includeLevel.contains r.level
          || sel.includeName.contains r.name
          || !(intersection sel.includeTag r.tags).isEmpty
      resolveRulesGo rest sel (if added then acc ++ [r] else acc)

/-- From src: `resolveRules` — reduce the catalog to the active subset. -/
def resolveRules (rules : List SchemaRule) (selector : RuleSelector) :
    List SchemaRule :=
  resolveRulesGo rules selector []

/-- From src (visitor): a rule error reported for a failing node, annotated
with the identity of the rule that produced it. -/
structure RuleError where
  ruleName : String
  msg : String
deriving DecidableEq

/-- From src (visitor): the visiting report — ordered changes and errors,
append-only during a run. -/
structure VisitorResult where
  changes : List DeltaOp
  errors : List RuleError

/-- Modelled from the spec: `friendlyError` (src/utils/ajv, not in the
embedded tree) — translate one ajv failure descriptor into a `RuleError`
carrying this rule's identity. -/
def friendlyError (err : String) (rule : SchemaRule) : RuleError :=
  ⟨rule.name, err⟩

/-- Modelled from the spec: the `hasItems` utility (src/utils, not in the
embedded tree) — true exactly when the value is an array with at least one
element (ajv's `errors` and deep-diff's `diff` may both be nil). -/
def hasItems {α : Type} (xs : Option (List α)) : Bool :=
  match xs with
  | some l => !l.isEmpty
  | none => false

/-- From src: the accepted branch of `SchemaRule.visit`: run the compiled
check; on a rejection that exposes a non-empty `errors` array, return one
annotated `RuleError` per descriptor, else an empty error list.  The result
is paired with the node value after the validator ran. -/
def checkNode (rule : SchemaRule) (node : Value) : VisitorResult × Value :=
  let cres := rule.check node
  let errors :=
    if !cres.ok && hasItems cres.errors then
      (cres.errors.getD []).map (fun err => friendlyError err rule)
    else []
  (⟨[], errors⟩, cres.output)

/-- From src: `SchemaRule.compileFilter` — an absent filter compiles to a
predicate accepting every node (and touching nothing). -/
def compileFilter (rule : SchemaRule) : CheckFn :=
  match rule.filter with
  | none => fun node => ⟨true, none, node⟩
  | some f => f

/-- From src: `SchemaRule.visit` — evaluate the filter; if it rejects the
node, skip with an empty result (no error); otherwise evaluate the check.
The returned pair carries the `VisitorResult` (whose `changes` are always
empty) and the working copy after the validators ran (the source mutates the
node in place; the embedding threads the value). -/
def SchemaRule.visit (rule : SchemaRule) (node : Value) :
    VisitorResult × Value :=
  let fres := compileFilter rule node
  if fres.ok then checkNode rule fres.output
  else (⟨[], []⟩, fres.output)

/-- The engine's observable log entries (`visitRules` logs one of these per
visited node). -/
inductive LogEntry where
  | ruleFailed (ruleName : String) (count : Nat)
  | passedWithModifications (ruleName : String) (itemDiff : List DeltaOp)
  | passed (ruleName : String)

/-- Modelled from the spec: `VisitorContext.mergeResult` (src/visitor, not in
the embedded tree) — append-only merge of the accumulated report. -/
def mergeResult (a b : VisitorResult) : VisitorResult :=
  ⟨a.changes ++ b.changes, a.errors ++ b.errors⟩

/-- The run state threaded by the engine: the (possibly mutated) document and
the context's accumulated report and log.  The `mutate` flag
(`ctx.innerOptions.mutate`) is fixed per run and passed separately. -/
structure EngineState where
  doc : Value
  report : VisitorResult
  log : List LogEntry

/-- Modelled from the spec: the path-selection capability `ctx.pick`
(jsonpath, not part of the core).  It returns an ordered sequence of
references to nodes of the document; a node reference is modelled as the path
at which the node sits. -/
def PickFn := String → Value → List Path

/-- From src (lodash): `cloneDeep` — a deep, independent copy; the identity
under value semantics. -/
def cloneDeep (v : Value) : Value := v

/-- From src: `SchemaRule.pick` — delegate to the selection capability on
this rule's `select` expression (the debug log on an empty result is not
tracked). -/
def SchemaRule.pick (pickFn : PickFn) (rule : SchemaRule) (root : Value) :
    List Path :=
  pickFn rule.select root

/-- Read the node a reference (path) points to. -/
def getPath : Path → Value → Option Value
  | [], t => some t
  | Step.key c :: q, Value.obj fs =>
    match lookupF fs c with
    | some v => getPath q v
    | none => none
  | Step.idx i :: q, Value.arr xs =>
    match xs[i]? with
    | some v => getPath q v
    | none => none
  | _, _ => none

/-- Replace the node a reference (path) points to (in-place mutation of the
document through a node reference, in value semantics). -/
def setPath : Path → Value → Value → Value
  | [], _, b => b
  | Step.key c :: q, Value.obj fs, b =>
    Value.obj (mapF fs c (fun v => setPath q v b))
  | Step.idx i :: q, Value.arr xs, b =>
    Value.arr (mapAt xs i (fun v => setPath q v b))
  | _, t, _ => t
termination_by p _ _ => p.length
decreasing_by all_goals simp_wf

/-- Modelled from the spec: the deep-diff `diff` entry point returns
`undefined` (here `none`) when the trees have no differences. -/
def diffO (a b : Value) : Option (List DeltaOp) :=
  let d := diff a b
  if d.isEmpty then none else some d

/-- Modelled from the spec: deep-diff `applyDiff(target, source)` — apply the
structural differences between target and source onto target, so that target
becomes deep-equal to source. -/
def applyDiff (target source : Value) : Value :=
  applyOps target (diff target source)

/-- From src: the body of the inner loop of `visitRules` for one picked node:
clone the node, visit the clone, and either merge a failing result into the
report (no diff is computed), or diff the original node against the visited
copy; on a non-empty delta log it and, when the run mutates, commit it via
`applyDiff(item, itemResult)` at the node's position. -/
def visitNode (mutate : Bool) (rule : SchemaRule) (st : EngineState)
    (p : Path) : EngineState :=
  match getPath p st.doc with
  | none => st
  | some item =>
    let itemResult := cloneDeep item
    let visited := rule.visit itemResult
    let ruleResult := visited.1
    let out := visited.2
    if ruleResult.errors.length > 0 then
      { st with
        report := mergeResult st.report ruleResult
        log := st.log
          ++ [LogEntry.ruleFailed rule.name ruleResult.errors.length] }
    else
      let itemDiff := diffO item out
      if hasItems itemDiff then
        let st1 := { st with
          log := st.log
            ++ [LogEntry.passedWithModifications rule.name (itemDiff.getD [])] }
        if mutate then
          { st1 with doc := setPath p st.doc (applyDiff item out) }
        else st1
      else { st with log := st.log ++ [LogEntry.passed rule.name] }

/-- From src: the per-rule loop of `visitRules` — pick the nodes from the
current document once, then process each picked node in order. -/
def visitRule (mutate : Bool) (pickFn : PickFn) (rule : SchemaRule)
    (st : EngineState) : EngineState :=
  (SchemaRule.pick pickFn rule st.doc).foldl (visitNode mutate rule) st

/-- From src: `visitRules` — sequentially apply each active rule to the
document, threading the context (report and log) and the possibly-mutated
document; a later rule observes an earlier rule's committed mutations. -/
def visitRules (mutate : Bool) (pickFn : PickFn) (rules : List SchemaRule)
    (st : EngineState) : EngineState :=
  rules.foldl (fun s rule => visitRule mutate pickFn rule s) st

/-- A fresh per-run context: empty report and log. -/
def initialState (doc : Value) : EngineState := ⟨doc, ⟨[], []⟩, []⟩

/-- The error report of one engine run started on a fresh context. -/
def runErrors (mutate : Bool) (pickFn : PickFn) (rules : List SchemaRule)
    (doc : Value) : List RuleError :=
  (visitRules mutate pickFn rules (initialState doc)).report.errors

/-! ## Selector lemmas and claims C2, C3 -/

/-- The selector with all six criteria lists empty. -/
def emptySelector : RuleSelector := ⟨[], [], [], [], [], []⟩

theorem resolveRulesGo_empty (rules : List SchemaRule)
    (acc : List SchemaRule) : resolveRulesGo rules emptySelector acc = acc := by
  induction rules generalizing acc with
  | nil => rfl
  | cons r rest ih =>
    rw [resolveRulesGo]
    have h1 : emptySelector.excludeLevel.contains r.level = false := rfl
    have h2 : emptySelector.excludeName.contains r.name = false := rfl
    have h3 : (intersection emptySelector.excludeTag r.tags).isEmpty = true :=
      rfl
    have h4 : emptySelector.includeLevel.contains r.level = false := rfl
    have h5 : emptySelector.includeName.contains r.name = false := rfl
    have h6 : (intersection emptySelector.includeTag r.tags).isEmpty = true :=
      rfl
    simp only [h1, h2, h3, h4, h5, h6]
    simp [ih]

theorem resolveRulesGo_excluded {sel : RuleSelector} {r : SchemaRule}
    (hx : r.level ∈ sel.excludeLevel ∨ r.name ∈ sel.excludeName
      ∨ ∃ t, t ∈ r.tags ∧ t ∈ sel.excludeTag) :
    ∀ (rules acc : List SchemaRule), r ∉ acc →
      r ∉ resolveRulesGo rules sel acc := by
  intro rules
  induction rules with
  | nil =>
    intro acc hacc
    rw [resolveRulesGo]
    exact hacc
  | cons r0 rest ih =>
    intro acc hacc
    rw [resolveRulesGo]
    split
    · exact ih acc hacc
    · split
      · exact ih acc hacc
      · split
        · exact ih acc hacc
        · rename_i h1 h2 h3
          apply ih
          split
          · intro hmem
            rcases List.mem_append.mp hmem with hm | hm
            · exact hacc hm
            · simp only [List.mem_singleton] at hm
              subst hm
              rcases hx with h | h | ⟨t, ht1, ht2⟩
              · exact h1 (List.elem_iff.mpr h)
              · exact h2 (List.elem_iff.mpr h)
              · apply h3
                have hmem2 : t ∈ intersection sel.excludeTag r.tags := by
                  rw [intersection, List.mem_dedup, List.mem_filter]
                  exact ⟨ht2, List.elem_iff.mpr ht1⟩
                have hne : intersection sel.excludeTag r.tags ≠ [] :=
                  List.ne_nil_of_mem hmem2
                simp [List.isEmpty_iff, hne]
          · exact hacc

/-- C2: for every rule catalog, `resolveRules` with all six criteria sets
empty returns an empty active-rule set — a rule matching none of the three
include predicates is never added (reject-all default). -/
theorem resolveRules_empty_selector (rules : List SchemaRule) :
    resolveRules rules emptySelector = [] :=
  resolveRulesGo_empty rules []

/-- C3: whenever any exclude criterion matches a rule — in particular when
some tag of the rule occurs in both `includeTag` and `excludeTag` —
`resolveRules` does not include the rule in the active set, regardless of how
many include predicates match. -/
theorem resolveRules_exclude_dominates (rules : List SchemaRule)
    (sel : RuleSelector) (r : SchemaRule)
    (hx : r.level ∈ sel.excludeLevel ∨ r.name ∈ sel.excludeName
      ∨ ∃ t, t ∈ r.tags ∧ t ∈ sel.excludeTag) :
    r ∉ resolveRules rules sel :=
  resolveRulesGo_excluded hx rules [] (by simp)

/-- A check predicate that accepts every node unchanged. -/
def passCheck : CheckFn := fun node => ⟨true, none, node⟩

/-- A concrete rule whose only tag is both included and excluded below. -/
def ruleEx3 : SchemaRule :=
  ⟨"overlap-tag rule", LogLevel.info, "rule-3", "$", ["a"], passCheck, none⟩

/-- A selector that both includes and excludes tag "a". -/
def selEx3 : RuleSelector := ⟨[], [], ["a"], [], [], ["a"]⟩

/-- C3 witness: the concrete rule with tag "a" is not selected when "a" is in
both `includeTag` and `excludeTag`. -/
theorem resolveRules_exclude_dominates_witness :
    ruleEx3 ∉ resolveRules [ruleEx3] selEx3 :=
  resolveRules_exclude_dominates [ruleEx3] selEx3 ruleEx3
    (Or.inr (Or.inr ⟨"a", by simp [ruleEx3], by simp [selEx3]⟩))

/-! ## Constructor claims C8, C9 -/

/-- Rule data with an explicitly empty `select` string. -/
def dataEmptySelect : RuleData :=
  ⟨"empty select", LogLevel.info, "rule-8", [], passCheck, none, some ""⟩

/-- C8 counterexample: `defaultTo(data.select, '$')` replaces only a nil
`select`; an explicitly empty string is kept, so the constructed rule's
`select` is empty for this input. -/
theorem schemaRule_select_empty_cex :
    (SchemaRule.ofData dataEmptySelect).select = "" := rfl

/-- C8 (amended): an absent `select` defaults to the whole-document selector
`"$"`, and the constructed `select` is non-empty whenever the input `select`
is not the explicit empty string. -/
theorem schemaRule_select_default (data : RuleData) :
    (data.select = none → (SchemaRule.ofData data).select = "$")
    ∧ (data.select ≠ some "" → (SchemaRule.ofData data).select ≠ "") := by
  constructor
  · intro h
    simp [SchemaRule.ofData, h]
  · intro h
    cases hs : data.select with
    | none => simp [SchemaRule.ofData, hs]
    | some s =>
      have hne : s ≠ "" := fun he => h (by rw [hs, he])
      simp [SchemaRule.ofData, hs, hne]

/-- Rule data without a `select`. -/
def dataNoSelect : RuleData :=
  ⟨"no select", LogLevel.info, "rule-8b", [], passCheck, none, none⟩

/-- C8 witness: with `select` absent, the constructed rule selects `"$"`,
which is non-empty. -/
theorem schemaRule_select_default_witness :
    (SchemaRule.ofData dataNoSelect).select = "$"
      ∧ (SchemaRule.ofData dataNoSelect).select ≠ "" :=
  ⟨(schemaRule_select_default dataNoSelect).1 rfl,
    (schemaRule_select_default dataNoSelect).2 (by simp [dataNoSelect])⟩

/-- Rule data with a duplicated tag. -/
def dataDupTags : RuleData :=
  ⟨"dup tags", LogLevel.info, "rule-9", ["a", "a"], passCheck, none, none⟩

/-- C9 counterexample: `Array.from(data.tags)` copies the array, so a
duplicated input tag stays duplicated — "a" occurs twice in the constructed
rule's tags, refuting at-most-once membership. -/
theorem schemaRule_tags_dup_cex :
    (SchemaRule.ofData dataDupTags).tags = ["a", "a"]
      ∧ (SchemaRule.ofData dataDupTags).tags.count "a" = 2 := by
  constructor
  · rfl
  · rfl

/-- C9 (amended): the constructed rule's tags are an element-wise copy of the
input tag sequence, preserving order and multiplicity (duplicates do not
collapse). -/
theorem schemaRule_tags_copy (data : RuleData) :
    (SchemaRule.ofData data).tags = data.tags := rfl

/-! ## Engine support lemmas -/

theorem hasItems_iff {α : Type} (xs : Option (List α)) :
    hasItems xs = true ↔ xs.getD [] ≠ [] := by
  cases xs with
  | none => simp [hasItems]
  | some l => simp [hasItems]

theorem visit_changes (rule : SchemaRule) (node : Value) :
    (rule.visit node).1.changes = [] := by
  rw [SchemaRule.visit]
  split <;> rfl

theorem visitNode_false_doc (rule : SchemaRule) (st : EngineState) (p : Path) :
    (visitNode false rule st p).doc = st.doc := by
  simp only [visitNode]
  split
  · rfl
  · split
    · rfl
    · split
      · rfl
      · rfl

theorem visitRule_false_doc (pickFn : PickFn) (rule : SchemaRule)
    (st : EngineState) : (visitRule false pickFn rule st).doc = st.doc := by
  rw [visitRule]
  generalize SchemaRule.pick pickFn rule st.doc = ps
  induction ps generalizing st with
  | nil => rfl
  | cons p rest ih =>
    rw [List.foldl_cons]
    rw [ih (visitNode false rule st p), visitNode_false_doc]

theorem visitRules_false_doc (pickFn : PickFn) (rules : List SchemaRule)
    (st : EngineState) : (visitRules false pickFn rules st).doc = st.doc := by
  induction rules generalizing st with
  | nil => rfl
  | cons r rest ih =>
    show (visitRules false pickFn rest (visitRule false pickFn r st)).doc
      = st.doc
    rw [ih (visitRule false pickFn r st), visitRule_false_doc]

theorem visitNode_changes (mutate : Bool) (rule : SchemaRule)
    (st : EngineState) (p : Path) :
    (visitNode mutate rule st p).report.changes = st.report.changes := by
  simp only [visitNode]
  split
  · rfl
  · rename_i item hget
    split
    · show (mergeResult st.report (rule.visit (cloneDeep item)).1).changes
        = st.report.changes
      rw [mergeResult, visit_changes]
      exact List.append_nil _
    · split
      · split
        · rfl
        · rfl
      · rfl

theorem visitRule_changes (mutate : Bool) (pickFn : PickFn)
    (rule : SchemaRule) (st : EngineState) :
    (visitRule mutate pickFn rule st).report.changes
      = st.report.changes := by
  rw [visitRule]
  generalize SchemaRule.pick pickFn rule st.doc = ps
  induction ps generalizing st with
  | nil => rfl
  | cons p rest ih =>
    rw [List.foldl_cons]
    rw [ih (visitNode mutate rule st p), visitNode_changes]

theorem visitRules_changes (mutate : Bool) (pickFn : PickFn)
    (rules : List SchemaRule) (st : EngineState) :
    (visitRules mutate pickFn rules st).report.changes
      = st.report.changes := by
  induction rules generalizing st with
  | nil => rfl
  | cons r rest ih =>
    show (visitRules mutate pickFn rest
        (visitRule mutate pickFn r st)).report.changes = st.report.changes
    rw [ih (visitRule mutate pickFn r st), visitRule_changes]

/-! ## Claim C1: mutation guard and mutate=false idempotence -/

/-- C1: a document node is mutated by a step of the engine only when the
run's mutate flag is set and the rule's visit of that node's working copy
produced zero errors; a whole run with mutate=false leaves the document
unchanged, and running the engine twice (each run on a fresh context) with
mutate=false yields the same error set both times. -/
theorem visitRules_mutate_guard (mutate : Bool) (pickFn : PickFn)
    (rules : List SchemaRule) (rule : SchemaRule) (st : EngineState)
    (p : Path) :
    ((visitNode mutate rule st p).doc = st.doc
      ∨ (mutate = true ∧ ∃ item, getPath p st.doc = some item
          ∧ (rule.visit (cloneDeep item)).1.errors = []))
    ∧ (mutate = true ∨ (visitRules mutate pickFn rules st).doc = st.doc)
    ∧ (visitRules false pickFn rules st).doc = st.doc
    ∧ runErrors false pickFn rules st.doc
        = runErrors false pickFn rules ((visitRules false pickFn rules st).doc) := by
  refine ⟨?_, ?_, visitRules_false_doc pickFn rules st, ?_⟩
  · simp only [visitNode]
    split
    · exact Or.inl rfl
    · rename_i item hget
      split
      · exact Or.inl rfl
      · rename_i herrs
        have herr : (rule.visit (cloneDeep item)).1.errors = [] := by
          rcases Nat.eq_zero_or_pos (rule.visit (cloneDeep item)).1.errors.length
            with h0 | h0
          · exact List.length_eq_zero.mp h0
          · exact absurd h0 herrs
        split
        · cases mutate with
          | false => exact Or.inl rfl
          | true => exact Or.inr ⟨rfl, item, hget, herr⟩
        · exact Or.inl rfl
  · cases mutate with
    | true => exact Or.inl rfl
    | false => exact Or.inr (visitRules_false_doc pickFn rules st)
  · rw [visitRules_false_doc pickFn rules st]

/-! ## Claim C5: check failure produces annotated errors, is merged, never aborts -/

/-- C5: when the filter accepts a node's working copy and the check predicate
rejects it, `visit` returns exactly one `RuleError` per underlying
validation-failure descriptor, each annotated with the rule's identity; the
engine merges that result into the accumulated report (the document is
untouched and the log records the failure), and the run structure continues
with the remaining nodes and rules. -/
theorem visit_check_failure (mutate : Bool) (pickFn : PickFn)
    (rule : SchemaRule) (rs : List SchemaRule) (st : EngineState) (p : Path)
    (item : Value) (hget : getPath p st.doc = some item)
    (hfil : (compileFilter rule (cloneDeep item)).ok = true)
    (hchk : (rule.check (compileFilter rule (cloneDeep item)).output).ok
      = false)
    (hdesc : (rule.check
      (compileFilter rule (cloneDeep item)).output).errors.getD [] ≠ []) :
    ((rule.visit (cloneDeep item)).1.errors
        = ((rule.check (compileFilter rule (cloneDeep item)).output).errors.getD
            []).map (fun err => friendlyError err rule))
    ∧ (∀ e ∈ (rule.visit (cloneDeep item)).1.errors, e.ruleName = rule.name)
    ∧ (rule.visit (cloneDeep item)).1.errors ≠ []
    ∧ visitNode mutate rule st p
        = { st with
            report := mergeResult st.report (rule.visit (cloneDeep item)).1
            log := st.log ++ [LogEntry.ruleFailed rule.name
              (rule.visit (cloneDeep item)).1.errors.length] }
    ∧ (visitNode mutate rule st p).doc = st.doc
    ∧ visitRule mutate pickFn rule st
        = (pickFn rule.select st.doc).foldl (visitNode mutate rule) st
    ∧ visitRules mutate pickFn (rule :: rs) st
        = visitRules mutate pickFn rs (visitRule mutate pickFn rule st) := by
  have hvisit : (rule.visit (cloneDeep item)).1.errors
      = ((rule.check (compileFilter rule (cloneDeep item)).output).errors.getD
          []).map (fun err => friendlyError err rule) := by
    rw [SchemaRule.visit]
    rw [if_pos hfil]
    show (checkNode rule (compileFilter rule (cloneDeep item)).output).1.errors
      = _
    rw [checkNode]
    have hcond : (!(rule.check
          (compileFilter rule (cloneDeep item)).output).ok
        && hasItems (rule.check
          (compileFilter rule (cloneDeep item)).output).errors) = true := by
      rw [hchk, (hasItems_iff _).mpr hdesc]
      rfl
    rw [if_pos hcond]
  have hne : (rule.visit (cloneDeep item)).1.errors ≠ [] := by
    rw [hvisit]
    simp only [ne_eq, List.map_eq_nil_iff]
    exact hdesc
  have hnode : visitNode mutate rule st p
      = { st with
          report := mergeResult st.report (rule.visit (cloneDeep item)).1
          log := st.log ++ [LogEntry.ruleFailed rule.name
            (rule.visit (cloneDeep item)).1.errors.length] } := by
    simp only [visitNode, hget]
    rw [if_pos (List.length_pos.mpr hne)]
  refine ⟨hvisit, ?_, hne, hnode, by rw [hnode], rfl, rfl⟩
  · intro e he
    rw [hvisit] at he
    obtain ⟨err, _, heq⟩ := List.mem_map.mp he
    rw [← heq]
    rfl

/-! ## Claim C6: filter rejection is a skip; absent filter checks every node -/

/-- C6: if a rule's filter predicate rejects a node, `visit` returns a result
with empty errors and empty changes (the check contributes nothing), handing
back the node as the filter left it; an absent filter behaves as a
constant-true predicate, so `visit` reduces to checking the node. -/
theorem visit_filter_skip (rule : SchemaRule) (node : Value) :
    (∀ f, rule.filter = some f → (f node).ok = false →
      rule.visit node = (⟨[], []⟩, (f node).output))
    ∧ (rule.filter = none →
        compileFilter rule node = ⟨true, none, node⟩
        ∧ rule.visit node = checkNode rule node) := by
  constructor
  · intro f hf hrej
    rw [SchemaRule.visit]
    have hcf : compileFilter rule = f := by
      rw [compileFilter, hf]
    rw [hcf, if_neg (by rw [hrej]; simp)]
  · intro hf
    have hcf : compileFilter rule node = ⟨true, none, node⟩ := by
      rw [compileFilter, hf]
    refine ⟨hcf, ?_⟩
    rw [SchemaRule.visit, hcf]
    rfl

/-- A filter that rejects every node unchanged. -/
def rejectFilter : CheckFn := fun node => ⟨false, some ["rejected"], node⟩

/-- A rule whose filter rejects everything; its check would reject, too. -/
def ruleEx6 : SchemaRule :=
  ⟨"filter skip", LogLevel.info, "rule-6",
    "$", [], (fun node => ⟨false, some ["boom"], node⟩), some rejectFilter⟩

/-- A rule without a filter. -/
def ruleEx6b : SchemaRule :=
  ⟨"no filter", LogLevel.info, "rule-6b", "$", [], passCheck, none⟩

/-- C6 witness: on the concrete filtered rule, visiting a rejected node
produces the empty result even though the check rejects; on the concrete
filter-less rule, visiting reduces to the check. -/
theorem visit_filter_skip_witness :
    ruleEx6.visit Value.null = (⟨[], []⟩, Value.null)
      ∧ ruleEx6b.visit Value.null = checkNode ruleEx6b Value.null :=
  ⟨(visit_filter_skip ruleEx6 Value.null).1 rejectFilter rfl rfl,
    ((visit_filter_skip ruleEx6b Value.null).2 rfl).2⟩

/-! ## Claim C5 witness -/

/-- A check that rejects every node with two failure descriptors. -/
def failCheck2 : CheckFn := fun node => ⟨false, some ["e1", "e2"], node⟩

/-- A rule whose check rejects with two descriptors. -/
def ruleEx5 : SchemaRule :=
  ⟨"two errors", LogLevel.info, "rule-5", "$", [], failCheck2, none⟩

/-- Selection of the document root. -/
def pickRoot : PickFn := fun _ _ => [[]]

/-- C5 witness: on the concrete rejecting rule, visiting the root of a null
document yields one annotated error per descriptor and the engine leaves the
document untouched. -/
theorem visit_check_failure_witness :
    (ruleEx5.visit (cloneDeep Value.null)).1.errors
        = [⟨"rule-5", "e1"⟩, ⟨"rule-5", "e2"⟩]
      ∧ (visitNode false ruleEx5 (initialState Value.null) []).doc
          = Value.null := by
  have h := visit_check_failure false pickRoot ruleEx5 []
    (initialState Value.null) [] Value.null rfl rfl rfl
    (by simp [ruleEx5, failCheck2, compileFilter, cloneDeep])
  exact ⟨by rw [h.1]; rfl, h.2.2.2.2.1⟩

/-! ## Claim C10: a rejection with no failure descriptors counts as a pass -/

/-- C10: when the filter accepts but the check rejects a node while exposing
an empty (or absent) list of failure descriptors, `visit` returns zero
errors, so the engine treats the node as passing — and with mutate=true a
modification the predicate made to the working copy is committed into the
document. -/
theorem visit_empty_errors_passes (rule : SchemaRule) (st : EngineState)
    (p : Path) (item : Value)
    (hget : getPath p st.doc = some item)
    (hfil : (compileFilter rule (cloneDeep item)).ok = true)
    (_hchk : (rule.check (compileFilter rule (cloneDeep item)).output).ok
      = false)
    (hdesc : (rule.check
      (compileFilter rule (cloneDeep item)).output).errors.getD [] = [])
    (hdiff : diff item (rule.visit (cloneDeep item)).2 ≠ []) :
    (rule.visit (cloneDeep item)).1.errors = []
    ∧ visitNode true rule st p
        = { st with
            doc := setPath p st.doc
              (applyDiff item (rule.visit (cloneDeep item)).2)
            log := st.log ++ [LogEntry.passedWithModifications rule.name
              (diff item (rule.visit (cloneDeep item)).2)] } := by
  have herr : (rule.visit (cloneDeep item)).1.errors = [] := by
    rw [SchemaRule.visit, if_pos hfil]
    show (checkNode rule (compileFilter rule (cloneDeep item)).output).1.errors
      = []
    rw [checkNode]
    have h1 : hasItems (rule.check
        (compileFilter rule (cloneDeep item)).output).errors = false := by
      cases hh : hasItems (rule.check
          (compileFilter rule (cloneDeep item)).output).errors with
      | false => rfl
      | true => exact absurd ((hasItems_iff _).mp hh) (by rw [hdesc]; simp)
    rw [if_neg (by rw [h1, Bool.and_false]; simp)]
  refine ⟨herr, ?_⟩
  simp only [visitNode, hget]
  rw [if_neg (by rw [herr]; simp)]
  have hdiffO : diffO item (rule.visit (cloneDeep item)).2
      = some (diff item (rule.visit (cloneDeep item)).2) := by
    rw [diffO]
    rw [if_neg (by simp [List.isEmpty_iff, hdiff])]
  rw [hdiffO]
  rw [if_pos (by
    rw [hasItems]
    simp [List.isEmpty_iff, hdiff])]
  simp

/-- A check that rejects with an empty descriptor list and rewrites the node
to the number one. -/
def emptyRejectCheck : CheckFn := fun _ => ⟨false, some [], Value.num 1⟩

/-- A rule whose check rejects with no descriptors while mutating the node. -/
def ruleEx10 : SchemaRule :=
  ⟨"empty errors", LogLevel.info, "rule-10", "$", [], emptyRejectCheck, none⟩

/-- C10 witness: the concrete descriptor-less rejection yields zero errors
and, with mutate=true, the engine commits the working copy's rewrite of the
null document to the number one. -/
theorem visit_empty_errors_passes_witness :
    (ruleEx10.visit (cloneDeep Value.null)).1.errors = []
      ∧ visitNode true ruleEx10 (initialState Value.null) []
          = { doc := Value.num 1, report := ⟨[], []⟩,
              log := [LogEntry.passedWithModifications "rule-10"
                [⟨[], DKind.edit Value.null (Value.num 1)⟩]] } := by
  have h := visit_empty_errors_passes ruleEx10 (initialState Value.null) []
    Value.null rfl rfl rfl rfl
    (by simp [SchemaRule.visit, checkNode, compileFilter, cloneDeep,
      ruleEx10, emptyRejectCheck, hasItems, diff])
  refine ⟨h.1, ?_⟩
  rw [h.2]
  simp only [SchemaRule.visit, checkNode, compileFilter, cloneDeep, ruleEx10,
    emptyRejectCheck, initialState]
  simp [setPath, applyDiff, applyOps, diff, applyStep_nil_edit, hasItems]

/-! ## Claim C7: with mutate=false the change is only logged, not reported -/

/-- A passing check that rewrites every node to the number one. -/
def mutatingCheck : CheckFn := fun _ => ⟨true, none, Value.num 1⟩

/-- A rule that passes with a modification on every node. -/
def ruleEx7 : SchemaRule :=
  ⟨"passes with modifications", LogLevel.info, "rule-7", "$", [],
    mutatingCheck, none⟩

/-- C7 counterexample: a run with mutate=false in which the rule passes with
a non-empty delta (the log records it) leaves the document unchanged, but the
context's accumulated `VisitorResult` does not record the would-be change —
its `changes` list is empty. -/
theorem visitRules_report_changes_cex :
    (visitRules false pickRoot [ruleEx7] (initialState Value.null)).log
        = [LogEntry.passedWithModifications "rule-7"
            [⟨[], DKind.edit Value.null (Value.num 1)⟩]]
      ∧ (visitRules false pickRoot [ruleEx7]
          (initialState Value.null)).report.changes = []
      ∧ (visitRules false pickRoot [ruleEx7]
          (initialState Value.null)).doc = Value.null := by
  refine ⟨?_, ?_, ?_⟩ <;>
    simp [visitRules, visitRule, visitNode, SchemaRule.pick, pickRoot,
      ruleEx7, mutatingCheck, SchemaRule.visit, checkNode, compileFilter,
      cloneDeep, initialState, getPath, diffO, diff, hasItems, mergeResult]

/-- C7 (amended): with mutate=false, a rule that passes with a non-empty
delta on a node leaves the document and the accumulated report unchanged;
the would-be change is recorded in the log only, and the context's
`VisitorResult.changes` stays empty across any run. -/
theorem visitNode_no_mutate_logs_change (mutate : Bool) (pickFn : PickFn)
    (rules : List SchemaRule) (rule : SchemaRule) (st : EngineState)
    (p : Path) (item : Value)
    (hget : getPath p st.doc = some item)
    (herr : (rule.visit (cloneDeep item)).1.errors = [])
    (hdiff : diff item (rule.visit (cloneDeep item)).2 ≠ []) :
    visitNode false rule st p
        = { st with log := st.log ++ [LogEntry.passedWithModifications
            rule.name (diff item (rule.visit (cloneDeep item)).2)] }
    ∧ (visitRules mutate pickFn rules st).report.changes
        = st.report.changes := by
  refine ⟨?_, visitRules_changes mutate pickFn rules st⟩
  simp only [visitNode, hget]
  rw [if_neg (by rw [herr]; simp)]
  have hdiffO : diffO item (rule.visit (cloneDeep item)).2
      = some (diff item (rule.visit (cloneDeep item)).2) := by
    rw [diffO]
    rw [if_neg (by simp [List.isEmpty_iff, hdiff])]
  rw [hdiffO]
  rw [if_pos (by
    rw [hasItems]
    simp [List.isEmpty_iff, hdiff])]
  rw [if_neg (by simp)]
  simp

/-- C7 amendment witness: on the concrete modifying rule and a null document,
the mutate=false step logs the delta while the document and the report stay
untouched. -/
theorem visitNode_no_mutate_logs_change_witness :
    visitNode false ruleEx7 (initialState Value.null) []
        = { doc := Value.null, report := ⟨[], []⟩,
            log := [LogEntry.passedWithModifications "rule-7"
              [⟨[], DKind.edit Value.null (Value.num 1)⟩]] }
      ∧ (visitRules false pickRoot [ruleEx7]
          (initialState Value.null)).report.changes = [] := by
  have h := visitNode_no_mutate_logs_change false pickRoot [ruleEx7] ruleEx7
    (initialState Value.null) [] Value.null rfl rfl
    (by simp [SchemaRule.visit, checkNode, compileFilter, cloneDeep,
      ruleEx7, mutatingCheck, diff])
  constructor
  · rw [h.1]
    simp [SchemaRule.visit, checkNode, compileFilter, cloneDeep, ruleEx7,
      mutatingCheck, initialState, diff]
  · exact h.2

/-! ## Claim C4: the DeltaEngine contract -/

/-- C4: for all well-formed trees A and B, applying diff(A,B) to a deep clone
of A yields a tree deep-equal to B; diff(A,A) is empty; a deep-equal rewrite
yields an empty diff; and consequently a rule whose visit only rewrites a
node to a deep-equal value makes the engine log a clean pass and mutate
nothing, even with mutate=true. -/
theorem apply_diff_roundtrip (a b : Value) (ha : wf a = true)
    (hb : wf b = true) :
    deepEqual (applyOps (cloneDeep a) (diff a b)) b
    ∧ diff a a = []
    ∧ (deepEqual a b → diff a b = [])
    ∧ (∀ (mutate : Bool) (rule : SchemaRule) (st : EngineState) (p : Path)
        (item : Value), getPath p st.doc = some item →
        (rule.visit (cloneDeep item)).1.errors = [] →
        diff item (rule.visit (cloneDeep item)).2 = [] →
        visitNode mutate rule st p
          = { st with log := st.log ++ [LogEntry.passed rule.name] }) := by
  refine ⟨canon_apply_diff a b ha hb, diff_self a ha,
    fun hde => diff_eq_nil a b ha hb hde, ?_⟩
  intro mutate rule st p item hget herr hdiff
  simp only [visitNode, hget]
  rw [if_neg (by rw [herr]; simp)]
  have hdiffO : diffO item (rule.visit (cloneDeep item)).2 = none := by
    rw [diffO]
    rw [if_pos (by simp [List.isEmpty_iff, hdiff])]
  rw [hdiffO]
  rw [if_neg (by rw [hasItems]; simp)]

/-- A small well-formed object. -/
def aEx4 : Value :=
  Value.obj [("x", Value.num 1), ("y", Value.arr [Value.num 2])]

/-- Another small well-formed object sharing one key with `aEx4`. -/
def bEx4 : Value :=
  Value.obj [("y", Value.arr [Value.num 2, Value.num 3]), ("z", Value.null)]

/-- C4 witness: the round-trip contract evaluated at two concrete objects. -/
theorem apply_diff_roundtrip_witness :
    wf aEx4 = true ∧ wf bEx4 = true
      ∧ (deepEqual (applyOps (cloneDeep aEx4) (diff aEx4 bEx4)) bEx4
          ∧ diff aEx4 aEx4 = []
          ∧ (deepEqual aEx4 bEx4 → diff aEx4 bEx4 = [])
          ∧ (∀ (mutate : Bool) (rule : SchemaRule) (st : EngineState)
              (p : Path) (item : Value), getPath p st.doc = some item →
              (rule.visit (cloneDeep item)).1.errors = [] →
              diff item (rule.visit (cloneDeep item)).2 = [] →
              visitNode mutate rule st p
                = { st with log := st.log ++ [LogEntry.passed rule.name] })) :=
  ⟨by simp [aEx4, wf, wfList, wfFields, keysNodupB, fieldKeys],
    by simp [bEx4, wf, wfList, wfFields, keysNodupB, fieldKeys],
    apply_diff_roundtrip aEx4 bEx4
      (by simp [aEx4, wf, wfList, wfFields, keysNodupB, fieldKeys])
      (by simp [bEx4, wf, wfList, wfFields, keysNodupB, fieldKeys])⟩

end SaltyDog
